import Mathlib

/-!
QtPdfAnnotator: the annotation scene, the page layout and the view zoom.

A shallow embedding of `src/main.cpp`.

* A `qreal` is a C++ `double`.  `Double` below is IEEE-754 binary64 with
  round-to-nearest, ties-to-even: a finite value is the rational number it
  denotes, and every arithmetic result is rounded by `Double.round`.  The two
  zeros are one value; the program never divides by a variable and never
  inspects a sign bit, so it cannot tell them apart.
* The one exception is the scale of the view (`QGraphicsView`): the zoom claims
  of the specification are worded for exact arithmetic ("exactly over the
  rationals, i.e. within floating-point tolerance in the program"), and the
  scale factors are kept as rationals to state them so.
* An `int` is an integer.  The conversion from `double` to `int` is undefined
  outside the range of a 32-bit `int`; the embedding returns `none` there.
* A `QGraphicsScene` is the list of its live items in insertion order.  Every
  item carries the handle it was allocated under; handles come from a counter
  and are never handed out twice, so a pointer to a deleted item refers to no
  live item.  `nullptr` is `none`.
* Dereferencing a pointer that refers to no live path item is undefined
  behaviour in the program; the embedding returns `none` there.
* Qt library calls are modelled after Qt 6 (`QPdfDocument::pagePointSize`
  needs Qt 6.4): `QPainterPath::moveTo` and `QPainterPath::lineTo` ignore a
  point with an invalid coordinate, and `lineTo` adds nothing when the point
  compares equal to the last element of the path; `QPointF` equality is Qt's
  fuzzy comparison; `QGraphicsScene::clear` deletes every item and nothing
  else.  The calls to the base-class event handlers
  (`QGraphicsScene::mousePressEvent` and friends) do not touch any of the
  modelled fields.
-/

namespace QtPdfAnnotator

/-! C++ double -/

/-- A value of type `double`. -/
inductive Double where
  | finite (q : ℚ)
  | posInf
  | negInf
  | nan
deriving DecidableEq

/-- The nearest natural number to `n / d`, ties to the even one (`d` positive). -/
def roundNearestEven (n d : ℕ) : ℕ :=
  if 2 * (n % d) < d then n / d
  else if d < 2 * (n % d) then n / d + 1
  else if (n / d) % 2 = 0 then n / d else n / d + 1

/-- Binary logarithm by repeated halving; `fuel` bounds the number of halvings. -/
def log2Fuel : ℕ → ℕ → ℕ
  | 0, _ => 0
  | fuel + 1, n => if n < 2 then 0 else log2Fuel fuel (n / 2) + 1

/-- The position of the leading bit of `n`: `2 ^ natLog2 n ≤ n < 2 ^ (natLog2 n + 1)`
for positive `n`.  The fuel `n` is never used up. -/
def natLog2 (n : ℕ) : ℕ := log2Fuel n n

/-- The binary exponent of the positive rational `n / d`: the `E` with
`2 ^ E ≤ n / d < 2 ^ (E + 1)`. -/
def floorLog2 (n d : ℕ) : ℤ :=
  if d * 2 ^ ((natLog2 n : ℤ) - (natLog2 d : ℤ)).toNat
      ≤ n * 2 ^ ((natLog2 d : ℤ) - (natLog2 n : ℤ)).toNat then
    (natLog2 n : ℤ) - (natLog2 d : ℤ)
  else (natLog2 n : ℤ) - (natLog2 d : ℤ) - 1

/-- The positive rational `n / d` rounded to binary64: a 53-bit significand
`m` at exponent `e`, where `e` is at least `-1074` (subnormal numbers); `none`
when the rounded value is `2 ^ 1024` or more (overflow). -/
def Double.roundPos (n d : ℕ) : Option ℚ :=
  let e : ℤ := max (floorLog2 n d - 52) (-1074)
  let m : ℕ := roundNearestEven (n * 2 ^ (-e).toNat) (d * 2 ^ e.toNat)
  let v : ℚ := mkRat (m * 2 ^ e.toNat : ℕ) (2 ^ (-e).toNat)
  if (2 : ℚ) ^ (1024 : ℕ) ≤ v then none else some v

/-- The exact value `q` rounded to a `double`. -/
def Double.round (q : ℚ) : Double :=
  if q = 0 then Double.finite 0
  else if 0 < q then
    match Double.roundPos q.num.natAbs q.den with
    | some v => Double.finite v
    | none => Double.posInf
  else
    match Double.roundPos q.num.natAbs q.den with
    | some v => Double.finite (-v)
    | none => Double.negInf

instance (n : ℕ) : OfNat Double n := ⟨Double.finite n⟩

namespace Double

/-- Unary minus. -/
def neg : Double → Double
  | finite q => finite (-q)
  | posInf => negInf
  | negInf => posInf
  | nan => nan

/-- The sum `a + b`. -/
def add : Double → Double → Double
  | finite a, finite b => round (a + b)
  | nan, _ => nan
  | _, nan => nan
  | posInf, negInf => nan
  | negInf, posInf => nan
  | posInf, _ => posInf
  | _, posInf => posInf
  | negInf, _ => negInf
  | _, negInf => negInf

/-- The difference `a - b`. -/
def sub (a b : Double) : Double := a.add b.neg

/-- The product of an infinity of the given sign with `b`. -/
def mulInf (positive : Bool) : Double → Double
  | finite b =>
    if b = 0 then nan
    else if (0 < b) = (positive = true) then posInf else negInf
  | posInf => if positive then posInf else negInf
  | negInf => if positive then negInf else posInf
  | nan => nan

/-- The product `a * b`. -/
def mul : Double → Double → Double
  | finite a, finite b => round (a * b)
  | posInf, b => mulInf true b
  | negInf, b => mulInf false b
  | nan, _ => nan
  | a, posInf => mulInf true a
  | a, negInf => mulInf false a
  | _, nan => nan

/-- The comparison `a < b`. -/
def lt : Double → Double → Bool
  | finite a, finite b => decide (a < b)
  | nan, _ => false
  | _, nan => false
  | negInf, negInf => false
  | negInf, _ => true
  | _, negInf => false
  | posInf, _ => false
  | finite _, posInf => true

/-- The comparison `a <= b`. -/
def le : Double → Double → Bool
  | finite a, finite b => decide (a ≤ b)
  | nan, _ => false
  | _, nan => false
  | negInf, _ => true
  | _, posInf => true
  | posInf, _ => false
  | finite _, negInf => false

/-- Whether the value is zero, the test `!x`. -/
def isZero : Double → Bool
  | finite q => decide (q = 0)
  | _ => false

/-- Whether the value is finite, `qIsFinite`. -/
def isFinite : Double → Bool
  | finite _ => true
  | _ => false

/-- The absolute value, `qAbs(t)`: `t >= 0 ? t : -t`. -/
def abs (t : Double) : Double := if (0 : Double).le t then t else t.neg

/-- The smaller value, `qMin(a, b)`: `(a < b) ? a : b`. -/
def min (a b : Double) : Double := if a.lt b then a else b

end Double

/-- The call `qFuzzyCompare(p1, p2)`:
`qAbs(p1 - p2) * 1000000000000. <= qMin(qAbs(p1), qAbs(p2))`. -/
def qFuzzyCompare (p1 p2 : Double) : Bool :=
  (((p1.sub p2).abs).mul 1000000000000).le (Double.min p1.abs p2.abs)

/-- The call `qFuzzyIsNull(d)`: `qAbs(d) <= 0.000000000001`. -/
def qFuzzyIsNull (d : Double) : Bool :=
  d.abs.le (Double.round (1 / 1000000000000))

/-- The conversion from `double` to `int`: the fractional part is dropped; the
behaviour is undefined (`none`) when the result does not fit a 32-bit `int`. -/
def qrealToInt : Double → Option ℤ
  | Double.finite q =>
    if -2147483648 ≤ Int.tdiv q.num q.den ∧ Int.tdiv q.num q.den ≤ 2147483647 then
      some (Int.tdiv q.num q.den)
    else none
  | _ => none

/-! Qt value types -/

/-- A point with `qreal` coordinates. -/
structure QPointF where
  x : Double
  y : Double
deriving DecidableEq

/-- The comparison `p1 == p2` of two points, Qt's fuzzy comparison: per
coordinate, `qFuzzyIsNull` of the difference when one of the two is zero and
`qFuzzyCompare` otherwise. -/
def QPointF.equals (p1 p2 : QPointF) : Bool :=
  (if p1.x.isZero || p2.x.isZero then qFuzzyIsNull (p1.x.sub p2.x)
    else qFuzzyCompare p1.x p2.x) &&
  (if p1.y.isZero || p2.y.isZero then qFuzzyIsNull (p1.y.sub p2.y)
    else qFuzzyCompare p1.y p2.y)

/-- A size with `qreal` extents. -/
structure QSizeF where
  width : Double
  height : Double
deriving DecidableEq

/-- A size with `int` extents. -/
structure QSize where
  width : ℤ
  height : ℤ
deriving DecidableEq

/-- A rectangle `QRectF(x, y, w, h)`. -/
structure QRectF where
  x : Double
  y : Double
  width : Double
  height : Double
deriving DecidableEq

/-- An RGB colour. -/
structure QColor where
  red : ℕ
  green : ℕ
  blue : ℕ
deriving DecidableEq

/-- The colour `Qt::red`. -/
def Qt.red : QColor := ⟨255, 0, 0⟩

/-- The colour `Qt::white`. -/
def Qt.white : QColor := ⟨255, 255, 255⟩

/-- The colour `Qt::gray`. -/
def Qt.gray : QColor := ⟨160, 160, 164⟩

/-- The buttons of `Qt::MouseButton` a mouse event can report. -/
inductive MouseButton where
  | NoButton
  | LeftButton
  | RightButton
  | MiddleButton
deriving DecidableEq

/-- The pen line styles used by the program. -/
inductive PenStyle where
  | SolidLine
deriving DecidableEq

/-- The pen cap styles used by the program. -/
inductive PenCapStyle where
  | SquareCap
  | RoundCap
deriving DecidableEq

/-- The pen join styles used by the program. -/
inductive PenJoinStyle where
  | BevelJoin
  | RoundJoin
deriving DecidableEq

/-- A pen: colour, width and line attributes.  The only widths the program
stores are `int` values (converted exactly) and the default width 1, so the
width is kept as the number it denotes. -/
structure QPen where
  color : QColor
  width : ℚ
  style : PenStyle
  cap : PenCapStyle
  join : PenJoinStyle
deriving DecidableEq

/-- The pen `QPen(color)`: width 1, solid line, square cap, bevel join. -/
def QPen.ofColor (c : QColor) : QPen :=
  ⟨c, 1, PenStyle.SolidLine, PenCapStyle.SquareCap, PenJoinStyle.BevelJoin⟩

/-- One element of a painter path. -/
inductive PathElement where
  | MoveTo (p : QPointF)
  | LineTo (p : QPointF)
deriving DecidableEq

/-- The point an element of a painter path ends in. -/
def PathElement.point : PathElement → QPointF
  | PathElement.MoveTo p => p
  | PathElement.LineTo p => p

/-- A painter path: its elements in the order they were added. -/
structure QPainterPath where
  elements : List PathElement
deriving DecidableEq

/-- Qt's `isValidCoord(c)`: `qIsFinite(c) && fabs(c) < 1e128`. -/
def isValidCoord (c : Double) : Bool :=
  c.isFinite && c.abs.lt (Double.round (10 ^ 128))

/-- Qt's `hasValidCoords(p)`: both coordinates are valid. -/
def hasValidCoords (p : QPointF) : Bool :=
  isValidCoord p.x && isValidCoord p.y

namespace QPainterPath

/-- The default-constructed, empty path. -/
def empty : QPainterPath := ⟨[]⟩

/-- Qt's `ensureData()`: a path without data gets the single element
`MoveTo (0, 0)`. -/
def ensureData (path : QPainterPath) : QPainterPath :=
  if path.elements = [] then ⟨[PathElement.MoveTo ⟨0, 0⟩]⟩ else path

/-- The call `path.moveTo(p)`: ignored for a point with an invalid coordinate;
otherwise a trailing `MoveTo` element is overwritten with `p`, and after any
other element a `MoveTo p` is appended. -/
def moveTo (path : QPainterPath) (p : QPointF) : QPainterPath :=
  if hasValidCoords p = false then path
  else
    match path.ensureData.elements.getLast? with
    | some (PathElement.MoveTo _) =>
      ⟨path.ensureData.elements.dropLast ++ [PathElement.MoveTo p]⟩
    | _ => ⟨path.ensureData.elements ++ [PathElement.MoveTo p]⟩

/-- The call `path.lineTo(p)`: ignored for a point with an invalid coordinate;
otherwise nothing is added when `p` compares equal to the last element of the
path, and a `LineTo p` is appended when it does not. -/
def lineTo (path : QPainterPath) (p : QPointF) : QPainterPath :=
  if hasValidCoords p = false then path
  else
    match path.ensureData.elements.getLast? with
    | some last =>
      if p.equals last.point = true then path.ensureData
      else ⟨path.ensureData.elements ++ [PathElement.LineTo p]⟩
    | none => path.ensureData

/-- The points of a path, in the order they were added. -/
def points (path : QPainterPath) : List QPointF :=
  path.elements.map PathElement.point

end QPainterPath

/-! Scene items -/

/-- A stroke: a path item with its pen. -/
structure QGraphicsPathItem where
  pen : QPen
  path : QPainterPath
deriving DecidableEq

/-- A rendered page: the image `render(page, renderSize)` placed at `pos`. -/
structure QGraphicsPixmapItem where
  page : ℕ
  renderSize : QSize
  pos : QPointF
deriving DecidableEq

/-- A page background rectangle. -/
structure QGraphicsRectItem where
  rect : QRectF
  brush : QColor
  pen : QPen
  zValue : Double
  pos : QPointF
deriving DecidableEq

/-- An item of the scene. -/
inductive QGraphicsItem where
  | pixmap (item : QGraphicsPixmapItem)
  | rect (item : QGraphicsRectItem)
  | path (item : QGraphicsPathItem)
deriving DecidableEq

/-- Whether the item belongs to a page (its pixmap or its background). -/
def QGraphicsItem.isPage : QGraphicsItem → Bool
  | QGraphicsItem.path _ => false
  | _ => true

/-! AnnotationScene -/

/-- The state of an `AnnotationScene`: the items of the underlying
`QGraphicsScene` with their handles, the handle counter, and the four member
variables of the class. -/
structure AnnotationScene where
  items : List (ℕ × QGraphicsItem)
  nextHandle : ℕ
  m_drawing : Bool
  m_penColor : QColor
  m_penWidth : ℤ
  m_currentPath : Option ℕ
deriving DecidableEq

/-- The mouse event data the handlers read: `button()` and `scenePos()`. -/
structure QGraphicsSceneMouseEvent where
  button : MouseButton
  scenePos : QPointF
deriving DecidableEq

namespace AnnotationScene

/-- The constructor.  It initialises `m_drawing`, `m_penWidth` and `m_penColor`;
`m_currentPath` is left uninitialised, so its value is whatever `indeterminate`
happens to be. -/
def new (indeterminate : Option ℕ) : AnnotationScene :=
  { items := []
    nextHandle := 0
    m_drawing := false
    m_penColor := Qt.red
    m_penWidth := 3
    m_currentPath := indeterminate }

/-- The slot `setPenColor`. -/
def setPenColor (sc : AnnotationScene) (color : QColor) : AnnotationScene :=
  { sc with m_penColor := color }

/-- The slot `setPenWidth`. -/
def setPenWidth (sc : AnnotationScene) (width : ℤ) : AnnotationScene :=
  { sc with m_penWidth := width }

/-- The call `addItem(item)` on a freshly allocated item: the item joins the
scene under a new handle, which is returned with the scene. -/
def addItem (sc : AnnotationScene) (item : QGraphicsItem) : AnnotationScene × ℕ :=
  ({ sc with items := sc.items ++ [(sc.nextHandle, item)], nextHandle := sc.nextHandle + 1 },
   sc.nextHandle)

/-- The call `QGraphicsScene::clear()`: every item is removed and deleted. -/
def clear (sc : AnnotationScene) : AnnotationScene :=
  { sc with items := [] }

/-- The live path item a handle refers to, if any. -/
def pathItem (sc : AnnotationScene) (h : ℕ) : Option QGraphicsPathItem :=
  match sc.items.find? (fun e => e.1 == h) with
  | some (_, QGraphicsItem.path item) => some item
  | _ => none

/-- The call `item->setPath(path)` on the item with handle `h`. -/
def setPath (sc : AnnotationScene) (h : ℕ) (path : QPainterPath) : AnnotationScene :=
  { sc with items := sc.items.map (fun e =>
      if e.1 = h then
        match e.2 with
        | QGraphicsItem.path item => (e.1, QGraphicsItem.path { item with path := path })
        | _ => e
      else e) }

/-- The handler `mousePressEvent`. -/
def mousePressEvent (sc : AnnotationScene) (event : QGraphicsSceneMouseEvent) :
    AnnotationScene :=
  if event.button = MouseButton.LeftButton then
    let pen : QPen :=
      ⟨sc.m_penColor, (sc.m_penWidth : ℚ), PenStyle.SolidLine, PenCapStyle.RoundCap,
        PenJoinStyle.RoundJoin⟩
    let path := QPainterPath.empty.moveTo event.scenePos
    let added := sc.addItem (QGraphicsItem.path { pen := pen, path := path })
    { added.1 with m_drawing := true, m_currentPath := some added.2 }
  else sc

/-- The handler `mouseMoveEvent`.  The result is `none` when the handler
dereferences an `m_currentPath` that refers to no live path item. -/
def mouseMoveEvent (sc : AnnotationScene) (event : QGraphicsSceneMouseEvent) :
    Option AnnotationScene :=
  if sc.m_drawing = true then
    match sc.m_currentPath with
    | none => some sc
    | some h =>
      match sc.pathItem h with
      | none => none
      | some item => some (sc.setPath h (item.path.lineTo event.scenePos))
  else some sc

/-- The handler `mouseReleaseEvent`. -/
def mouseReleaseEvent (sc : AnnotationScene) (event : QGraphicsSceneMouseEvent) :
    AnnotationScene :=
  if event.button = MouseButton.LeftButton ∧ sc.m_drawing = true then
    { sc with m_drawing := false, m_currentPath := none }
  else sc

/-- The strokes of the scene, in creation order. -/
def strokes (sc : AnnotationScene) : List QGraphicsPathItem :=
  sc.items.filterMap (fun e =>
    match e.2 with
    | QGraphicsItem.path item => some item
    | _ => none)

/-- The page items (pixmaps and backgrounds) of the scene, in insertion order. -/
def pageItems (sc : AnnotationScene) : List QGraphicsItem :=
  (sc.items.map Prod.snd).filter QGraphicsItem.isPage

/-- Handles are fresh: every live item was allocated before `nextHandle`. -/
def WellFormed (sc : AnnotationScene) : Prop :=
  ∀ e ∈ sc.items, e.1 < sc.nextHandle

end AnnotationScene

/-! Pointer events -/

/-- A pointer event delivered to the scene. -/
inductive PointerEvent where
  | press (event : QGraphicsSceneMouseEvent)
  | move (event : QGraphicsSceneMouseEvent)
  | release (event : QGraphicsSceneMouseEvent)
deriving DecidableEq

/-- Dispatch of one pointer event to its handler. -/
def AnnotationScene.handle (sc : AnnotationScene) : PointerEvent → Option AnnotationScene
  | PointerEvent.press event => some (sc.mousePressEvent event)
  | PointerEvent.move event => sc.mouseMoveEvent event
  | PointerEvent.release event => some (sc.mouseReleaseEvent event)

/-- Delivery of a sequence of pointer events in arrival order. -/
def AnnotationScene.handleAll (sc : AnnotationScene) : List PointerEvent → Option AnnotationScene
  | [] => some sc
  | ev :: rest =>
    match sc.handle ev with
    | none => none
    | some sc1 => sc1.handleAll rest

/-! MainWindow -/

/-- The values of `QPdfDocument::Status`. -/
inductive Status where
  | Null
  | Loading
  | Ready
  | Unloading
  | Error
deriving DecidableEq

/-- What the program reads from a `QPdfDocument` after `load`: its status and
the point size of each page, in page order. -/
structure QPdfDocument where
  status : Status
  pages : List QSizeF
deriving DecidableEq

/-- The call `pageCount()`. -/
def QPdfDocument.pageCount (doc : QPdfDocument) : ℕ := doc.pages.length

/-- The call `pagePointSize(i)`; an index outside the document gives the
invalid size `QSizeF()`, which is (-1, -1). -/
def QPdfDocument.pagePointSize (doc : QPdfDocument) (i : ℕ) : QSizeF :=
  doc.pages.getD i ⟨Double.finite (-1), Double.finite (-1)⟩

/-- The scale factors of the transformation of a `QGraphicsView`, read over the
rationals. -/
structure QGraphicsView where
  m11 : ℚ
  m22 : ℚ
deriving DecidableEq

/-- A freshly constructed view: the identity transformation. -/
def QGraphicsView.new : QGraphicsView := ⟨1, 1⟩

/-- The call `view->scale(sx, sy)`. -/
def QGraphicsView.scale (v : QGraphicsView) (sx sy : ℚ) : QGraphicsView :=
  ⟨v.m11 * sx, v.m22 * sy⟩

/-- The wheel event data the handler reads: whether `modifiers()` contains
`Qt::ControlModifier`, and `angleDelta().y()`. -/
structure QWheelEvent where
  controlModifier : Bool
  angleDeltaY : ℤ
deriving DecidableEq

/-- The state of the `MainWindow`. -/
structure MainWindow where
  m_scene : AnnotationScene
  m_view : QGraphicsView
  m_pdfDocument : Option QPdfDocument
deriving DecidableEq

namespace MainWindow

/-- The constructor; `indeterminate` is the uninitialised `m_currentPath` of
the scene it creates. -/
def new (indeterminate : Option ℕ) : MainWindow :=
  { m_scene := AnnotationScene.new indeterminate
    m_view := QGraphicsView.new
    m_pdfDocument := none }

/-- The constant `scaleFactor` of `wheelEvent`. -/
def scaleFactor : ℚ := 1.15

/-- The handler `wheelEvent`. -/
def wheelEvent (w : MainWindow) (event : QWheelEvent) : MainWindow :=
  if event.controlModifier = true then
    if event.angleDeltaY > 0 then
      { w with m_view := w.m_view.scale scaleFactor scaleFactor }
    else
      { w with m_view := w.m_view.scale (1.0 / scaleFactor) (1.0 / scaleFactor) }
  else w

/-- The constant `pageSpacing` of `openPdf`, 20.0. -/
def pageSpacing : Double := 20

/-- The body of the page loop of `openPdf` for page `i`: the loop state is the
scene together with `yPos`.  The result is `none` when a page extent does not
convert to `int`. -/
def openPdfPage (doc : QPdfDocument) (st : AnnotationScene × Double) (i : ℕ) :
    Option (AnnotationScene × Double) :=
  let yPos := st.2
  let pageSize := doc.pagePointSize i
  match qrealToInt pageSize.width, qrealToInt pageSize.height with
  | some width, some height =>
    let pixmapItem : QGraphicsPixmapItem :=
      { page := i
        renderSize := ⟨width, height⟩
        pos := ⟨0, yPos⟩ }
    let sc1 := (st.1.addItem (QGraphicsItem.pixmap pixmapItem)).1
    let background : QGraphicsRectItem :=
      { rect := ⟨0, 0, pageSize.width, pageSize.height⟩
        brush := Qt.white
        pen := QPen.ofColor Qt.gray
        zValue := Double.finite (-1)
        pos := ⟨0, yPos⟩ }
    let sc2 := (sc1.addItem (QGraphicsItem.rect background)).1
    some (sc2, yPos.add (pageSize.height.add pageSpacing))
  | _, _ => none

/-- The page loop of `openPdf` over the page indices in `indices`. -/
def openPdfPages (doc : QPdfDocument) :
    List ℕ → AnnotationScene × Double → Option (AnnotationScene × Double)
  | [], st => some st
  | i :: rest, st =>
    match openPdfPage doc st i with
    | none => none
    | some st1 => openPdfPages doc rest st1

/-- The slot `openPdf`.  `filePath` is what the file dialog returned and
`loaded` is the new document as it stands after `load(filePath)`. -/
def openPdf (w : MainWindow) (filePath : String) (loaded : QPdfDocument) :
    Option MainWindow :=
  if filePath.isEmpty then some w
  else
    let cleared := w.m_scene.clear
    if loaded.status ≠ Status.Ready then
      some { w with m_scene := cleared, m_pdfDocument := some loaded }
    else
      match openPdfPages loaded (List.range loaded.pageCount) (cleared, 0) with
      | none => none
      | some done => some { w with m_scene := done.1, m_pdfDocument := some loaded }

end MainWindow

/-! The quantities the specification speaks of -/

/-- The vertical origin of page `i` as the running `double` sum: 0 for the
first page, and for each page before `i` the sum so far plus (`height` plus
20), both additions rounded. -/
def pageOriginY (pages : List QSizeF) (i : ℕ) : Double :=
  (pages.take i).foldl (fun y p => y.add (p.height.add 20)) 0

/-- The position of a page item; a stroke has none. -/
def QGraphicsItem.pagePos : QGraphicsItem → Option QPointF
  | QGraphicsItem.pixmap item => some item.pos
  | QGraphicsItem.rect item => some item.pos
  | QGraphicsItem.path _ => none

/-- An action of the user on the window. -/
inductive Action where
  | pointer (ev : PointerEvent)
  | wheel (event : QWheelEvent)
  | penColor (color : QColor)
  | penWidth (width : ℤ)
  | open_ (filePath : String) (loaded : QPdfDocument)

/-- One action applied to the window. -/
def MainWindow.act (w : MainWindow) : Action → Option MainWindow
  | Action.pointer ev => (w.m_scene.handle ev).map (fun sc => { w with m_scene := sc })
  | Action.wheel event => some (w.wheelEvent event)
  | Action.penColor color => some { w with m_scene := w.m_scene.setPenColor color }
  | Action.penWidth width => some { w with m_scene := w.m_scene.setPenWidth width }
  | Action.open_ filePath loaded => w.openPdf filePath loaded

/-- A sequence of actions applied in order. -/
def MainWindow.actAll (w : MainWindow) : List Action → Option MainWindow
  | [] => some w
  | a :: rest =>
    match w.act a with
    | none => none
    | some w1 => w1.actAll rest

/-! Auxiliary facts about handles and strokes -/

theorem find_handle_last (pre : List (ℕ × QGraphicsItem)) (n : ℕ) (it : QGraphicsItem)
    (hpre : ∀ e ∈ pre, e.1 ≠ n) :
    (pre ++ [(n, it)]).find? (fun e => e.1 == n) = some (n, it) := by
  induction pre with
  | nil => simp
  | cons a rest ih =>
    have ha : a.1 ≠ n := hpre a (List.mem_cons_self a rest)
    have hrest : ∀ e ∈ rest, e.1 ≠ n := fun e he => hpre e (List.mem_cons_of_mem a he)
    have hbeq : (a.1 == n) = false := by simpa using ha
    simp only [List.cons_append, List.find?_cons, hbeq]
    exact ih hrest

theorem pathItem_last (sc : AnnotationScene) (pre : List (ℕ × QGraphicsItem)) (n : ℕ)
    (item : QGraphicsPathItem) (hitems : sc.items = pre ++ [(n, QGraphicsItem.path item)])
    (hpre : ∀ e ∈ pre, e.1 ≠ n) : sc.pathItem n = some item := by
  unfold AnnotationScene.pathItem
  rw [hitems, find_handle_last pre n _ hpre]

theorem setPath_last (sc : AnnotationScene) (pre : List (ℕ × QGraphicsItem)) (n : ℕ)
    (item : QGraphicsPathItem) (path : QPainterPath)
    (hitems : sc.items = pre ++ [(n, QGraphicsItem.path item)])
    (hpre : ∀ e ∈ pre, e.1 ≠ n) :
    (sc.setPath n path).items = pre ++ [(n, QGraphicsItem.path { item with path := path })] := by
  unfold AnnotationScene.setPath
  simp only [hitems, List.map_append, List.map_cons, List.map_nil, if_true]
  congr 1
  conv_rhs => rw [← List.map_id pre]
  apply List.map_congr_left
  intro e he
  simp [hpre e he]

theorem mouseMoveEvent_last (pre : List (ℕ × QGraphicsItem)) (n next : ℕ) (pen : QPen)
    (path : QPainterPath) (col : QColor) (wd : ℤ) (event : QGraphicsSceneMouseEvent)
    (hpre : ∀ e ∈ pre, e.1 ≠ n) :
    AnnotationScene.mouseMoveEvent
        ⟨pre ++ [(n, QGraphicsItem.path ⟨pen, path⟩)], next, true, col, wd, some n⟩ event
      = some ⟨pre ++ [(n, QGraphicsItem.path ⟨pen, path.lineTo event.scenePos⟩)],
          next, true, col, wd, some n⟩ := by
  have hitem := pathItem_last
    ⟨pre ++ [(n, QGraphicsItem.path ⟨pen, path⟩)], next, true, col, wd, some n⟩
    pre n ⟨pen, path⟩ rfl hpre
  have hset := setPath_last
    ⟨pre ++ [(n, QGraphicsItem.path ⟨pen, path⟩)], next, true, col, wd, some n⟩
    pre n ⟨pen, path⟩ (path.lineTo event.scenePos) rfl hpre
  unfold AnnotationScene.mouseMoveEvent
  simp only [if_true, hitem]
  congr 1
  have hrest : ∀ a b : AnnotationScene, a.items = b.items → a.nextHandle = b.nextHandle →
      a.m_drawing = b.m_drawing → a.m_penColor = b.m_penColor → a.m_penWidth = b.m_penWidth →
      a.m_currentPath = b.m_currentPath → a = b := by
    intro a b h1 h2 h3 h4 h5 h6
    cases a; cases b; simp_all
  apply hrest
  · rw [hset]
  all_goals rfl

theorem handleAll_moves (pre : List (ℕ × QGraphicsItem)) (n next : ℕ) (pen : QPen)
    (col : QColor) (wd : ℤ) (rest : List PointerEvent) (hpre : ∀ e ∈ pre, e.1 ≠ n)
    (moves : List QGraphicsSceneMouseEvent) :
    ∀ path : QPainterPath,
      AnnotationScene.handleAll
          ⟨pre ++ [(n, QGraphicsItem.path ⟨pen, path⟩)], next, true, col, wd, some n⟩
          (moves.map PointerEvent.move ++ rest)
        = AnnotationScene.handleAll
          ⟨pre ++ [(n, QGraphicsItem.path
              ⟨pen, (moves.map (fun e => e.scenePos)).foldl QPainterPath.lineTo path⟩)],
            next, true, col, wd, some n⟩
          rest := by
  induction moves with
  | nil => intro path; simp
  | cons e more ih =>
    intro path
    simp only [List.map_cons, List.cons_append, AnnotationScene.handleAll,
      AnnotationScene.handle, mouseMoveEvent_last pre n next pen path col wd e hpre,
      List.foldl_cons]
    exact ih (path.lineTo e.scenePos)

theorem strokes_append_path (sc sc1 : AnnotationScene) (h : ℕ) (stroke : QGraphicsPathItem)
    (hitems : sc1.items = sc.items ++ [(h, QGraphicsItem.path stroke)]) :
    sc1.strokes = sc.strokes ++ [stroke] := by
  unfold AnnotationScene.strokes
  rw [hitems, List.filterMap_append]
  rfl

/-! Painter paths -/

theorem moveTo_empty (p : QPointF) (hvalid : hasValidCoords p = true) :
    QPainterPath.empty.moveTo p = ⟨[PathElement.MoveTo p]⟩ := by
  simp [QPainterPath.moveTo, QPainterPath.empty, QPainterPath.ensureData, hvalid]

theorem moveTo_empty_invalid (p : QPointF) (hvalid : hasValidCoords p = false) :
    QPainterPath.empty.moveTo p = QPainterPath.empty := by
  simp [QPainterPath.moveTo, hvalid]

theorem lineTo_of_last (path : QPainterPath) (last : PathElement) (p : QPointF)
    (hlast : path.elements.getLast? = some last) :
    path.lineTo p
      = if hasValidCoords p = true ∧ p.equals last.point = false then
          ⟨path.elements ++ [PathElement.LineTo p]⟩
        else path := by
  have hne : path.elements ≠ [] := by
    intro h
    rw [h] at hlast
    simp at hlast
  have hdata : path.ensureData = path := by
    simp [QPainterPath.ensureData, hne]
  unfold QPainterPath.lineTo
  rw [hdata, hlast]
  cases hv : hasValidCoords p <;> cases he : p.equals last.point <;> simp [hv, he]

theorem foldl_lineTo_sublist (positions : List QPointF) :
    ∀ (path : QPainterPath) (last : PathElement), path.elements.getLast? = some last →
      ∃ kept : List QPointF,
        (positions.foldl QPainterPath.lineTo path).elements
          = path.elements ++ kept.map PathElement.LineTo ∧
        kept.Sublist positions := by
  induction positions with
  | nil =>
    intro path last _
    exact ⟨[], by simp, List.Sublist.slnil⟩
  | cons p rest ih =>
    intro path last hlast
    rw [List.foldl_cons, lineTo_of_last path last p hlast]
    by_cases hadd : hasValidCoords p = true ∧ p.equals last.point = false
    · rw [if_pos hadd]
      obtain ⟨kept, hkept, hsub⟩ :=
        ih ⟨path.elements ++ [PathElement.LineTo p]⟩ (PathElement.LineTo p) (by simp)
      refine ⟨p :: kept, ?_, hsub.cons₂ p⟩
      rw [hkept]
      simp
    · rw [if_neg hadd]
      obtain ⟨kept, hkept, hsub⟩ := ih path last hlast
      exact ⟨kept, hkept, hsub.cons p⟩

theorem foldl_lineTo_chain (positions : List QPointF) :
    ∀ (path : QPainterPath) (last : PathElement), path.elements.getLast? = some last →
      List.Chain (fun a b => hasValidCoords b = true ∧ b.equals a = false) last.point positions →
      (positions.foldl QPainterPath.lineTo path).elements
        = path.elements ++ positions.map PathElement.LineTo := by
  induction positions with
  | nil => intro path last _ _; simp
  | cons p rest ih =>
    intro path last hlast hchain
    obtain ⟨hadd, hrest⟩ := List.chain_cons.mp hchain
    rw [List.foldl_cons, lineTo_of_last path last p hlast, if_pos hadd,
      ih ⟨path.elements ++ [PathElement.LineTo p]⟩ (PathElement.LineTo p) (by simp) hrest]
    simp

/-! Stroke authoring -/

/-- Counterexample to C3 as stated: on a fresh scene, left press at (100,100), one
move to the same position (100,100), left release.  The sequence has one move,
yet the one stroke of the scene has the single point (100,100), not the two
points the claim counts: `lineTo` adds nothing for a point equal to the last
element of the path. -/
theorem repeated_move_adds_no_point :
    ((AnnotationScene.new none).handleAll
        [PointerEvent.press ⟨MouseButton.LeftButton, ⟨100, 100⟩⟩,
         PointerEvent.move ⟨MouseButton.NoButton, ⟨100, 100⟩⟩,
         PointerEvent.release ⟨MouseButton.LeftButton, ⟨100, 100⟩⟩]).map
      (fun sc => sc.strokes.map (fun s => s.path.points))
      = some [[⟨100, 100⟩]] ∧
    ((AnnotationScene.new none).handleAll
        [PointerEvent.press ⟨MouseButton.LeftButton, ⟨100, 100⟩⟩,
         PointerEvent.move ⟨MouseButton.NoButton, ⟨100, 100⟩⟩,
         PointerEvent.release ⟨MouseButton.LeftButton, ⟨100, 100⟩⟩]).map
      (fun sc => sc.strokes.map (fun s => s.path.points.length))
      = some [1] := by
  constructor <;> decide!

/-- C3, amended: in every state with fresh handles (the Idle states the program
reaches among them), the events left-press at `p0`, one move per element of
`moves`, left-release are all handled, and leave the scene Idle with its former
items followed by exactly one new stroke.  The path of that stroke is
`moveTo p0` followed by one `lineTo` per move position, in arrival order.  When
`p0` is a valid path coordinate, its points are `p0` followed by a subsequence
of the move positions, in order, so there are at most `moves.length + 1` of
them; and when every move position is valid and does not compare equal to the
position before it, the points are `p0` followed by all move positions and
their number is `moves.length + 1`. -/
theorem press_moves_release_adds_one_stroke (sc : AnnotationScene) (hwf : sc.WellFormed)
    (p0 : QPointF) (moves : List QGraphicsSceneMouseEvent) (releasePos : QPointF) :
    ∃ (sc1 : AnnotationScene) (stroke : QGraphicsPathItem),
      sc.handleAll
          (PointerEvent.press ⟨MouseButton.LeftButton, p0⟩ ::
            (moves.map PointerEvent.move ++
              [PointerEvent.release ⟨MouseButton.LeftButton, releasePos⟩])) = some sc1 ∧
        sc1.items = sc.items ++ [(sc.nextHandle, QGraphicsItem.path stroke)] ∧
        sc1.strokes = sc.strokes ++ [stroke] ∧
        sc1.m_drawing = false ∧ sc1.m_currentPath = none ∧
        stroke.path = (moves.map (fun e => e.scenePos)).foldl QPainterPath.lineTo
          (QPainterPath.empty.moveTo p0) ∧
        (hasValidCoords p0 = true →
          (∃ kept : List QPointF, stroke.path.points = p0 :: kept ∧
            kept.Sublist (moves.map (fun e => e.scenePos))) ∧
          stroke.path.points.length ≤ moves.length + 1 ∧
          (List.Chain (fun a b => hasValidCoords b = true ∧ b.equals a = false) p0
              (moves.map (fun e => e.scenePos)) →
            stroke.path.points = p0 :: moves.map (fun e => e.scenePos) ∧
            stroke.path.points.length = moves.length + 1)) := by
  have hpre : ∀ e ∈ sc.items, e.1 ≠ sc.nextHandle := fun e he => Nat.ne_of_lt (hwf e he)
  let pen : QPen :=
    ⟨sc.m_penColor, (sc.m_penWidth : ℚ), PenStyle.SolidLine, PenCapStyle.RoundCap,
      PenJoinStyle.RoundJoin⟩
  let stroke : QGraphicsPathItem :=
    ⟨pen, (moves.map (fun e => e.scenePos)).foldl QPainterPath.lineTo
      (QPainterPath.empty.moveTo p0)⟩
  let sc1 : AnnotationScene :=
    ⟨sc.items ++ [(sc.nextHandle, QGraphicsItem.path stroke)], sc.nextHandle + 1, false,
      sc.m_penColor, sc.m_penWidth, none⟩
  have hpress : sc.mousePressEvent ⟨MouseButton.LeftButton, p0⟩
      = ⟨sc.items ++ [(sc.nextHandle, QGraphicsItem.path ⟨pen, QPainterPath.empty.moveTo p0⟩)],
          sc.nextHandle + 1, true, sc.m_penColor, sc.m_penWidth, some sc.nextHandle⟩ := rfl
  refine ⟨sc1, stroke, ?_, rfl, strokes_append_path sc sc1 sc.nextHandle stroke rfl, rfl, rfl,
    rfl, ?_⟩
  · simp only [AnnotationScene.handleAll, AnnotationScene.handle]
    rw [hpress, handleAll_moves sc.items sc.nextHandle (sc.nextHandle + 1) pen sc.m_penColor
      sc.m_penWidth _ hpre moves (QPainterPath.empty.moveTo p0)]
    simp [AnnotationScene.handleAll, AnnotationScene.handle, AnnotationScene.mouseReleaseEvent,
      sc1, stroke]
  · intro hvalid
    have hstart : QPainterPath.empty.moveTo p0 = ⟨[PathElement.MoveTo p0]⟩ :=
      moveTo_empty p0 hvalid
    obtain ⟨kept, hkept, hsub⟩ :=
      foldl_lineTo_sublist (moves.map (fun e => e.scenePos)) ⟨[PathElement.MoveTo p0]⟩
        (PathElement.MoveTo p0) rfl
    have hpoints : stroke.path.points = p0 :: kept := by
      simp only [stroke, hstart, QPainterPath.points, hkept, List.map_append, List.map_cons,
        List.map_nil, List.map_map, List.singleton_append, PathElement.point]
      congr 1
      exact List.map_id kept
    refine ⟨⟨kept, hpoints, hsub⟩, ?_, ?_⟩
    · rw [hpoints, List.length_cons]
      have hlen := hsub.length_le
      simp only [List.length_map] at hlen
      omega
    · intro hchain
      have hall := foldl_lineTo_chain
        (moves.map (fun e : QGraphicsSceneMouseEvent => e.scenePos))
        ⟨[PathElement.MoveTo p0]⟩ (PathElement.MoveTo p0) rfl hchain
      have hpts : stroke.path.points = p0 :: moves.map (fun e => e.scenePos) := by
        simp only [stroke, hstart, QPainterPath.points, hall, List.map_append, List.map_cons,
          List.map_nil, List.map_map, List.singleton_append, PathElement.point]
        congr 1
      refine ⟨hpts, ?_⟩
      rw [hpts]
      simp

/-- Witness for C3, amended: a fresh scene, press at (100,100), move to
(100,200), release: one stroke with the two points. -/
theorem press_moves_release_adds_one_stroke_witness :
    (AnnotationScene.new none).WellFormed ∧
    ∃ (sc1 : AnnotationScene) (stroke : QGraphicsPathItem),
      (AnnotationScene.new none).handleAll
          (PointerEvent.press ⟨MouseButton.LeftButton, ⟨100, 100⟩⟩ ::
            ([(⟨MouseButton.NoButton, ⟨100, 200⟩⟩ : QGraphicsSceneMouseEvent)].map
                PointerEvent.move ++
              [PointerEvent.release ⟨MouseButton.LeftButton, ⟨100, 200⟩⟩])) = some sc1 ∧
        sc1.strokes = (AnnotationScene.new none).strokes ++ [stroke] ∧
        stroke.path.points = [⟨100, 100⟩, ⟨100, 200⟩] ∧
        stroke.path.points.length = 2 := by
  have hwf : (AnnotationScene.new none).WellFormed := by
    intro e he
    simp [AnnotationScene.new] at he
  obtain ⟨sc1, stroke, hrun, _, hstrokes, _, _, _, hpoints⟩ :=
    press_moves_release_adds_one_stroke (AnnotationScene.new none) hwf ⟨100, 100⟩
      [⟨MouseButton.NoButton, ⟨100, 200⟩⟩] ⟨100, 200⟩
  have hvalid : hasValidCoords ⟨100, 100⟩ = true := by decide!
  have hchain : List.Chain (fun a b => hasValidCoords b = true ∧ b.equals a = false)
      (⟨100, 100⟩ : QPointF)
      ([(⟨MouseButton.NoButton, ⟨100, 200⟩⟩ : QGraphicsSceneMouseEvent)].map
        (fun e => e.scenePos)) :=
    List.Chain.cons ⟨by decide!, by decide!⟩ List.Chain.nil
  obtain ⟨hpts, hlen⟩ := (hpoints hvalid).2.2 hchain
  exact ⟨hwf, sc1, stroke, hrun, hstrokes, hpts, hlen⟩

/-- C4: in the Idle state a move event and a release event of any button each
leave the whole scene state (items, every stroke with its points, the Idle
flag) as it was, and so does any sequence of such events. -/
theorem idle_move_release_noop (sc : AnnotationScene) (hidle : sc.m_drawing = false) :
    (∀ event, sc.mouseMoveEvent event = some sc) ∧
    (∀ event, sc.mouseReleaseEvent event = sc) ∧
    (∀ evs : List PointerEvent,
      (∀ ev ∈ evs, ∃ event, ev = PointerEvent.move event ∨ ev = PointerEvent.release event) →
      sc.handleAll evs = some sc) := by
  have hmove : ∀ event, sc.mouseMoveEvent event = some sc := by
    intro event
    simp [AnnotationScene.mouseMoveEvent, hidle]
  have hrelease : ∀ event, sc.mouseReleaseEvent event = sc := by
    intro event
    simp [AnnotationScene.mouseReleaseEvent, hidle]
  refine ⟨hmove, hrelease, ?_⟩
  intro evs
  induction evs with
  | nil => intro _; rfl
  | cons ev rest ih =>
    intro hall
    have hrest : sc.handleAll rest = some sc :=
      ih (fun e he => hall e (List.mem_cons_of_mem ev he))
    obtain ⟨event, hev | hev⟩ := hall ev (List.mem_cons_self ev rest)
    · simp [AnnotationScene.handleAll, AnnotationScene.handle, hev, hmove, hrest]
    · simp [AnnotationScene.handleAll, AnnotationScene.handle, hev, hrelease, hrest]

/-- Witness for C4: the freshly constructed scene is Idle. -/
theorem idle_move_release_noop_witness :
    (AnnotationScene.new none).m_drawing = false ∧
    ((∀ event, (AnnotationScene.new none).mouseMoveEvent event = some (AnnotationScene.new none)) ∧
    (∀ event, (AnnotationScene.new none).mouseReleaseEvent event = AnnotationScene.new none) ∧
    (∀ evs : List PointerEvent,
      (∀ ev ∈ evs, ∃ event, ev = PointerEvent.move event ∨ ev = PointerEvent.release event) →
      (AnnotationScene.new none).handleAll evs = some (AnnotationScene.new none))) :=
  ⟨rfl, idle_move_release_noop (AnnotationScene.new none) rfl⟩

/-- C10: `setPenColor` and `setPenWidth` change only the pen colour, respectively
the pen width, of the scene: items (every stroke with its pen and points, the
active one included), handle counter, drawing flag and current path stay; a
style change commutes with a following move event, which therefore extends the
active stroke under its old pen; and a left press adds a stroke whose pen has
exactly the colour and width the scene holds at that press. -/
theorem pen_style_captured_at_press (sc : AnnotationScene) (color : QColor) (width : ℤ)
    (p : QPointF) (event : QGraphicsSceneMouseEvent) :
    ((sc.setPenColor color).items = sc.items ∧ (sc.setPenColor color).m_penColor = color ∧
      (sc.setPenColor color).m_penWidth = sc.m_penWidth ∧
      (sc.setPenColor color).m_drawing = sc.m_drawing ∧
      (sc.setPenColor color).m_currentPath = sc.m_currentPath ∧
      (sc.setPenColor color).nextHandle = sc.nextHandle) ∧
    ((sc.setPenWidth width).items = sc.items ∧ (sc.setPenWidth width).m_penWidth = width ∧
      (sc.setPenWidth width).m_penColor = sc.m_penColor ∧
      (sc.setPenWidth width).m_drawing = sc.m_drawing ∧
      (sc.setPenWidth width).m_currentPath = sc.m_currentPath ∧
      (sc.setPenWidth width).nextHandle = sc.nextHandle) ∧
    (sc.setPenColor color).mouseMoveEvent event
      = (sc.mouseMoveEvent event).map (fun s => s.setPenColor color) ∧
    (sc.setPenWidth width).mouseMoveEvent event
      = (sc.mouseMoveEvent event).map (fun s => s.setPenWidth width) ∧
    (sc.mousePressEvent ⟨MouseButton.LeftButton, p⟩).items
      = sc.items ++ [(sc.nextHandle, QGraphicsItem.path
          ⟨⟨sc.m_penColor, (sc.m_penWidth : ℚ), PenStyle.SolidLine, PenCapStyle.RoundCap,
            PenJoinStyle.RoundJoin⟩, QPainterPath.empty.moveTo p⟩)] ∧
    (hasValidCoords p = true →
      QPainterPath.empty.moveTo p = ⟨[PathElement.MoveTo p]⟩) := by
  refine ⟨⟨rfl, rfl, rfl, rfl, rfl, rfl⟩, ⟨rfl, rfl, rfl, rfl, rfl, rfl⟩, ?_, ?_, rfl,
    moveTo_empty p⟩
  · unfold AnnotationScene.mouseMoveEvent
    have hitem : ∀ h, (sc.setPenColor color).pathItem h = sc.pathItem h := fun _ => rfl
    cases hd : sc.m_drawing with
    | false => simp [AnnotationScene.setPenColor, hd]
    | true =>
      cases hc : sc.m_currentPath with
      | none => simp [AnnotationScene.setPenColor, hd, hc]
      | some h =>
        have hitem1 := hitem h
        cases hi : sc.pathItem h with
        | none =>
          rw [hi] at hitem1
          simp [AnnotationScene.setPenColor, hd, hc, hi] at hitem1 ⊢
          simp [hitem1]
        | some item =>
          rw [hi] at hitem1
          simp [AnnotationScene.setPenColor, hd, hc, hi] at hitem1 ⊢
          simp [hitem1, AnnotationScene.setPath, hd, hc]
  · unfold AnnotationScene.mouseMoveEvent
    have hitem : ∀ h, (sc.setPenWidth width).pathItem h = sc.pathItem h := fun _ => rfl
    cases hd : sc.m_drawing with
    | false => simp [AnnotationScene.setPenWidth, hd]
    | true =>
      cases hc : sc.m_currentPath with
      | none => simp [AnnotationScene.setPenWidth, hd, hc]
      | some h =>
        have hitem1 := hitem h
        cases hi : sc.pathItem h with
        | none =>
          rw [hi] at hitem1
          simp [AnnotationScene.setPenWidth, hd, hc, hi] at hitem1 ⊢
          simp [hitem1]
        | some item =>
          rw [hi] at hitem1
          simp [AnnotationScene.setPenWidth, hd, hc, hi] at hitem1 ⊢
          simp [hitem1, AnnotationScene.setPath, hd, hc]

/-- Counterexample to C9 as stated: the freshly constructed scene is Idle and
holds no page, yet a left press at (100,100) is no no-op: afterwards the scene
holds one stroke and is Drawing. -/
theorem left_press_without_pages_draws :
    (AnnotationScene.new none).pageItems = [] ∧
    (AnnotationScene.new none).m_drawing = false ∧
    ((AnnotationScene.new none).mousePressEvent
      ⟨MouseButton.LeftButton, ⟨100, 100⟩⟩).strokes.length = 1 ∧
    ((AnnotationScene.new none).mousePressEvent
      ⟨MouseButton.LeftButton, ⟨100, 100⟩⟩).m_drawing = true ∧
    (AnnotationScene.new none).mousePressEvent ⟨MouseButton.LeftButton, ⟨100, 100⟩⟩
      ≠ AnnotationScene.new none := by
  refine ⟨rfl, rfl, rfl, rfl, ?_⟩
  intro h
  have hd := congrArg AnnotationScene.m_drawing h
  simp [AnnotationScene.mousePressEvent, AnnotationScene.new] at hd

/-- C9, amended: in an Idle scene that holds no page item, a move event, a
release event and a press of a button other than the left one are no-ops; a
left press begins a stroke as it does with pages loaded: one stroke whose path
is `moveTo` the press position (the press position as its only point, when that
is a valid path coordinate) joins the scene, which is then Drawing and still
holds no page item. -/
theorem pointer_events_without_pages (sc : AnnotationScene) (hnone : sc.pageItems = [])
    (hidle : sc.m_drawing = false) (event : QGraphicsSceneMouseEvent) :
    sc.mouseMoveEvent event = some sc ∧
    sc.mouseReleaseEvent event = sc ∧
    (event.button ≠ MouseButton.LeftButton → sc.mousePressEvent event = sc) ∧
    (event.button = MouseButton.LeftButton →
      (sc.mousePressEvent event).strokes = sc.strokes ++
        [⟨⟨sc.m_penColor, (sc.m_penWidth : ℚ), PenStyle.SolidLine, PenCapStyle.RoundCap,
          PenJoinStyle.RoundJoin⟩, QPainterPath.empty.moveTo event.scenePos⟩] ∧
      (hasValidCoords event.scenePos = true →
        QPainterPath.empty.moveTo event.scenePos = ⟨[PathElement.MoveTo event.scenePos]⟩) ∧
      (sc.mousePressEvent event).m_drawing = true ∧
      (sc.mousePressEvent event).pageItems = []) := by
  refine ⟨?_, ?_, ?_, ?_⟩
  · simp [AnnotationScene.mouseMoveEvent, hidle]
  · simp [AnnotationScene.mouseReleaseEvent, hidle]
  · intro hb
    simp [AnnotationScene.mousePressEvent, hb]
  · intro hb
    refine ⟨?_, moveTo_empty event.scenePos, ?_, ?_⟩
    · apply strokes_append_path sc _ sc.nextHandle
      simp [AnnotationScene.mousePressEvent, hb, AnnotationScene.addItem]
    · simp [AnnotationScene.mousePressEvent, hb]
    · unfold AnnotationScene.pageItems at hnone ⊢
      simp [AnnotationScene.mousePressEvent, hb, AnnotationScene.addItem, List.filter_append,
        hnone, QGraphicsItem.isPage]

/-- Witness for C9, amended: the freshly constructed scene and a left press. -/
theorem pointer_events_without_pages_witness :
    (AnnotationScene.new none).pageItems = [] ∧ (AnnotationScene.new none).m_drawing = false ∧
    ((AnnotationScene.new none).mousePressEvent ⟨MouseButton.LeftButton, ⟨100, 100⟩⟩).m_drawing
      = true :=
  ⟨rfl, rfl,
   ((pointer_events_without_pages (AnnotationScene.new none) rfl rfl
      ⟨MouseButton.LeftButton, ⟨100, 100⟩⟩).2.2.2 rfl).2.2.1⟩

/-! View zoom -/

/-- C7: a Ctrl+wheel event with positive vertical delta (zoom in, factor 1.15)
followed by one with non-positive vertical delta (zoom out, factor 1/1.15), or
the two in the other order, gives back the window state it started from, view
scale included. -/
theorem zoom_in_out_restores (w : MainWindow) (zin zout : QWheelEvent)
    (hinCtrl : zin.controlModifier = true) (hin : 0 < zin.angleDeltaY)
    (houtCtrl : zout.controlModifier = true) (hout : zout.angleDeltaY ≤ 0) :
    (w.wheelEvent zin).m_view.m11 = w.m_view.m11 * 1.15 ∧
    (w.wheelEvent zout).m_view.m11 = w.m_view.m11 * (1 / 1.15) ∧
    (w.wheelEvent zin).wheelEvent zout = w ∧
    (w.wheelEvent zout).wheelEvent zin = w := by
  have hnot : ¬ zout.angleDeltaY > 0 := not_lt.mpr hout
  have hgt : zin.angleDeltaY > 0 := hin
  obtain ⟨sc, ⟨a, b⟩, doc⟩ := w
  refine ⟨?_, ?_, ?_, ?_⟩
  · simp [MainWindow.wheelEvent, hinCtrl, hgt, QGraphicsView.scale, MainWindow.scaleFactor]
  · simp only [MainWindow.wheelEvent, houtCtrl, hnot, if_true, if_false, QGraphicsView.scale,
      MainWindow.scaleFactor]
    norm_num
  · simp only [MainWindow.wheelEvent, hinCtrl, houtCtrl, hgt, hnot, if_true, if_false,
      QGraphicsView.scale, MainWindow.scaleFactor]
    have ha : a * 1.15 * (1.0 / 1.15) = a := by ring_nf
    have hb : b * 1.15 * (1.0 / 1.15) = b := by ring_nf
    rw [ha, hb]
  · simp only [MainWindow.wheelEvent, hinCtrl, houtCtrl, hgt, hnot, if_true, if_false,
      QGraphicsView.scale, MainWindow.scaleFactor]
    have ha : a * (1.0 / 1.15) * 1.15 = a := by ring_nf
    have hb : b * (1.0 / 1.15) * 1.15 = b := by ring_nf
    rw [ha, hb]

/-- Witness for C7: wheel deltas +120 and -120 with Ctrl held, on a new window. -/
theorem zoom_in_out_restores_witness :
    ((MainWindow.new none).wheelEvent ⟨true, 120⟩).wheelEvent ⟨true, -120⟩ = MainWindow.new none ∧
    ((MainWindow.new none).wheelEvent ⟨true, -120⟩).wheelEvent ⟨true, 120⟩ = MainWindow.new none :=
  (zoom_in_out_restores (MainWindow.new none) ⟨true, 120⟩ ⟨true, -120⟩ rfl (by decide) rfl
    (by decide)).2.2

/-! Whole numbers below 2^53 are exact in double arithmetic -/

theorem log2Fuel_le (fuel : ℕ) : ∀ n b : ℕ, n < 2 ^ (b + 1) → log2Fuel fuel n ≤ b := by
  induction fuel with
  | zero => intro n b _; simp [log2Fuel]
  | succ fuel ih =>
    intro n b hn
    unfold log2Fuel
    by_cases h2 : n < 2
    · simp [h2]
    · simp only [h2, if_false]
      cases b with
      | zero => simp at hn; omega
      | succ b =>
        have hhalf : n / 2 < 2 ^ (b + 1) := by
          rw [Nat.div_lt_iff_lt_mul (by norm_num)]
          calc n < 2 ^ (b + 1 + 1) := hn
            _ = 2 ^ (b + 1) * 2 := by ring
        have := ih (n / 2) b hhalf
        omega

theorem roundNearestEven_one (n : ℕ) : roundNearestEven n 1 = n := by
  simp [roundNearestEven, Nat.mod_one]

theorem roundPos_natCast (n : ℕ) (hn : n < 2 ^ 53) : Double.roundPos n 1 = some (n : ℚ) := by
  have hlog : natLog2 n ≤ 52 := log2Fuel_le n n 52 hn
  have hlog1 : natLog2 1 = 0 := rfl
  have hE : floorLog2 n 1 ≤ 52 := by
    unfold floorLog2
    rw [hlog1]
    split <;> omega
  have he0 : max (floorLog2 n 1 - 52) (-1074) ≤ 0 := max_le (by omega) (by norm_num)
  obtain ⟨s, hs⟩ : ∃ s : ℕ, max (floorLog2 n 1 - 52) (-1074) = -(s : ℤ) :=
    ⟨(-(max (floorLog2 n 1 - 52) (-1074))).toNat, by omega⟩
  unfold Double.roundPos
  simp only [hs, neg_neg, Int.toNat_ofNat]
  have hneg : (-(s : ℤ)).toNat = 0 := by omega
  rw [hneg, pow_zero, mul_one, mul_one, roundNearestEven_one]
  have hv : mkRat ((n * 2 ^ s : ℕ) : ℤ) (2 ^ s) = (n : ℚ) := by
    rw [Rat.mkRat_eq_div]
    push_cast
    field_simp
  rw [hv]
  have hsmall : ¬ ((2 : ℚ) ^ (1024 : ℕ) ≤ (n : ℚ)) := by
    rw [not_le]
    have h1 : (n : ℚ) < (2 : ℚ) ^ (53 : ℕ) := by exact_mod_cast hn
    have h2 : (2 : ℚ) ^ (53 : ℕ) ≤ (2 : ℚ) ^ (1024 : ℕ) :=
      pow_le_pow_right₀ (by norm_num) (by norm_num)
    exact lt_of_lt_of_le h1 h2
  simp [hsmall]

theorem round_natCast (n : ℕ) (hn : n < 2 ^ 53) : Double.round (n : ℚ) = Double.finite n := by
  unfold Double.round
  by_cases h0 : (n : ℚ) = 0
  · simp [h0]
  · have hpos : (0 : ℚ) < n := by
      have : n ≠ 0 := by exact_mod_cast h0
      exact_mod_cast Nat.pos_of_ne_zero this
    simp only [h0, if_false, hpos, if_true, Rat.num_natCast, Int.natAbs_ofNat, Rat.den_natCast,
      roundPos_natCast n hn]

theorem add_natCast (a b : ℕ) (hsum : a + b < 2 ^ 53) :
    (Double.finite (a : ℚ)).add (Double.finite (b : ℚ)) = Double.finite ((a + b : ℕ) : ℚ) := by
  show Double.round ((a : ℚ) + (b : ℚ)) = _
  rw [← Nat.cast_add]
  exact round_natCast (a + b) hsum

/-! Rounding error of double arithmetic -/

theorem log2Fuel_lt (fuel : ℕ) : ∀ n : ℕ, n ≤ fuel → n < 2 ^ (log2Fuel fuel n + 1) := by
  induction fuel with
  | zero => intro n hn; simp [log2Fuel]; omega
  | succ fuel ih =>
    intro n hn
    unfold log2Fuel
    by_cases h2 : n < 2
    · simp [h2]
    · simp only [h2, if_false]
      have hhalf : n / 2 ≤ fuel := by omega
      have hrec := ih (n / 2) hhalf
      have : n < 2 * (n / 2 + 1) := by omega
      calc n < 2 * (n / 2 + 1) := this
        _ ≤ 2 * 2 ^ (log2Fuel fuel (n / 2) + 1) := by omega
        _ = 2 ^ (log2Fuel fuel (n / 2) + 1 + 1) := by ring

theorem natLog2_lt (n : ℕ) : n < 2 ^ (natLog2 n + 1) := log2Fuel_lt n n (Nat.le_refl n)

theorem natLog2_le (n : ℕ) (hn : 0 < n) : 2 ^ natLog2 n ≤ n := by
  by_contra hlt
  rw [not_le] at hlt
  cases hL : natLog2 n with
  | zero => rw [hL] at hlt; simp at hlt; omega
  | succ b =>
    rw [hL] at hlt
    have := log2Fuel_le n n b hlt
    unfold natLog2 at hL
    omega

theorem floorLog2_le (n d k : ℕ) (hn : 0 < n) (hx : n < d * 2 ^ (k + 1)) :
    floorLog2 n d ≤ (k : ℤ) := by
  have hn1 := natLog2_le n hn
  have hd2 := natLog2_lt d
  have hlow : natLog2 n < natLog2 d + k + 2 := by
    have h1 : 2 ^ natLog2 n < 2 ^ (natLog2 d + 1) * 2 ^ (k + 1) :=
      calc 2 ^ natLog2 n ≤ n := hn1
        _ < d * 2 ^ (k + 1) := hx
        _ ≤ 2 ^ (natLog2 d + 1) * 2 ^ (k + 1) := Nat.mul_le_mul_right _ (Nat.le_of_lt hd2)
    rw [← pow_add] at h1
    have := (Nat.pow_lt_pow_iff_right (by norm_num : 1 < 2)).mp h1
    omega
  unfold floorLog2
  split
  · rename_i hcond
    by_cases hge : natLog2 d ≤ natLog2 n
    · have e1 : ((natLog2 n : ℤ) - (natLog2 d : ℤ)).toNat = natLog2 n - natLog2 d := by omega
      have e2 : ((natLog2 d : ℤ) - (natLog2 n : ℤ)).toNat = 0 := by omega
      rw [e1, e2, pow_zero, mul_one] at hcond
      have h2 : d * 2 ^ (natLog2 n - natLog2 d) < d * 2 ^ (k + 1) := lt_of_le_of_lt hcond hx
      have hdpos : 0 < d := by
        rcases Nat.eq_zero_or_pos d with h0 | h0
        · rw [h0] at hx; simp at hx
        · exact h0
      have h3 := Nat.lt_of_mul_lt_mul_left h2
      have := (Nat.pow_lt_pow_iff_right (by norm_num : 1 < 2)).mp h3
      omega
    · omega
  · omega

theorem roundNearestEven_error (N D : ℕ) (hD : 0 < D) :
    2 * |((roundNearestEven N D : ℕ) : ℤ) * (D : ℤ) - (N : ℤ)| ≤ (D : ℤ) := by
  have hN : D * (N / D) + N % D = N := Nat.div_add_mod N D
  have hr : N % D < D := Nat.mod_lt N hD
  unfold roundNearestEven
  generalize N / D = q at hN ⊢
  generalize N % D = r at hN hr ⊢
  have hNz : (N : ℤ) = (D : ℤ) * (q : ℤ) + (r : ℤ) := by exact_mod_cast hN.symm
  have hlow : ((q : ℕ) : ℤ) * (D : ℤ) - (N : ℤ) = -(r : ℤ) := by rw [hNz]; ring
  have hhigh : ((q + 1 : ℕ) : ℤ) * (D : ℤ) - (N : ℤ) = (D : ℤ) - (r : ℤ) := by
    rw [hNz]; push_cast; ring
  have habs1 : |(-(r : ℤ))| = (r : ℤ) := by
    rw [abs_neg]; exact abs_of_nonneg (Int.natCast_nonneg r)
  have habs2 : |(D : ℤ) - (r : ℤ)| = (D : ℤ) - (r : ℤ) := abs_of_nonneg (by omega)
  split_ifs with h1 h2 h3
  · rw [hlow, habs1]; omega
  · rw [hhigh, habs2]; omega
  · rw [hlow, habs1]; omega
  · rw [hhigh, habs2]; omega

theorem roundPos_error (n d k : ℕ) (hn : 0 < n) (hd : 0 < d) (hx : n < d * 2 ^ (k + 1))
    (hk : k ≤ 1000) :
    ∃ v : ℚ, Double.roundPos n d = some v ∧ |v - (n : ℚ) / (d : ℚ)| ≤ 2 ^ k / 2 ^ 53 := by
  have hE := floorLog2_le n d k hn hx
  have he : max (floorLog2 n d - 52) (-1074) ≤ (k : ℤ) - 52 := max_le (by omega) (by omega)
  obtain ⟨a, b, hab, ha, hb⟩ : ∃ a b : ℕ, (a : ℤ) - (b : ℤ) = max (floorLog2 n d - 52) (-1074) ∧
      (max (floorLog2 n d - 52) (-1074)).toNat = a ∧
      (-(max (floorLog2 n d - 52) (-1074))).toNat = b :=
    ⟨(max (floorLog2 n d - 52) (-1074)).toNat, (-(max (floorLog2 n d - 52) (-1074))).toNat,
      by omega, rfl, rfl⟩
  have hexp : a + 52 ≤ k + b := by omega
  have herr := roundNearestEven_error (n * 2 ^ b) (d * 2 ^ a) (Nat.mul_pos hd (by positivity))
  generalize hm : roundNearestEven (n * 2 ^ b) (d * 2 ^ a) = m at herr
  have hv : mkRat ((m * 2 ^ a : ℕ) : ℤ) (2 ^ b) = (m : ℚ) * 2 ^ a / 2 ^ b := by
    rw [Rat.mkRat_eq_div]
    push_cast
    rfl
  have hdq : (0 : ℚ) < (d : ℚ) := by exact_mod_cast hd
  have hbq : (0 : ℚ) < (2 : ℚ) ^ b := by positivity
  have haq : (0 : ℚ) < (2 : ℚ) ^ a := by positivity
  have herrq : 2 * |(m : ℚ) * ((d : ℚ) * 2 ^ a) - (n : ℚ) * 2 ^ b| ≤ (d : ℚ) * 2 ^ a := by
    have := herr
    have hcast : (((2 * |((m : ℕ) : ℤ) * ((d * 2 ^ a : ℕ) : ℤ) - ((n * 2 ^ b : ℕ) : ℤ)| : ℤ)) : ℚ)
        ≤ (((d * 2 ^ a : ℕ) : ℤ) : ℚ) := by exact_mod_cast this
    push_cast at hcast
    exact hcast
  have hdiff : (m : ℚ) * 2 ^ a / 2 ^ b - (n : ℚ) / (d : ℚ)
      = ((m : ℚ) * ((d : ℚ) * 2 ^ a) - (n : ℚ) * 2 ^ b) / ((d : ℚ) * 2 ^ b) := by
    field_simp
    ring
  have hbound : |(m : ℚ) * 2 ^ a / 2 ^ b - (n : ℚ) / (d : ℚ)| ≤ 2 ^ k / 2 ^ 53 := by
    rw [hdiff, abs_div, abs_of_pos (mul_pos hdq hbq), div_le_div_iff₀ (mul_pos hdq hbq)
      (by positivity)]
    have hpow : (2 : ℚ) ^ a * 2 ^ 53 ≤ 2 ^ k * (2 * 2 ^ b) := by
      have h1 : (2 : ℚ) ^ a * 2 ^ 53 = 2 ^ (a + 53) := by rw [pow_add]
      have h2 : (2 : ℚ) ^ k * (2 * 2 ^ b) = 2 ^ (k + b + 1) := by ring
      rw [h1, h2]
      exact pow_le_pow_right₀ (by norm_num) (by omega)
    have habs_nonneg := abs_nonneg ((m : ℚ) * ((d : ℚ) * 2 ^ a) - (n : ℚ) * 2 ^ b)
    nlinarith [mul_le_mul_of_nonneg_left hpow (le_of_lt hdq),
      mul_le_mul_of_nonneg_right herrq (by positivity : (0 : ℚ) ≤ 2 ^ 53)]
  refine ⟨(m : ℚ) * 2 ^ a / 2 ^ b, ?_, hbound⟩
  unfold Double.roundPos
  simp only [ha, hb, hm, hv]
  have hxq : (n : ℚ) / (d : ℚ) < 2 ^ (k + 1) := by
    rw [div_lt_iff₀ hdq]
    have : ((n : ℕ) : ℚ) < ((d * 2 ^ (k + 1) : ℕ) : ℚ) := by exact_mod_cast hx
    push_cast at this
    linarith
  have hsmall : ¬ ((2 : ℚ) ^ (1024 : ℕ) ≤ (m : ℚ) * 2 ^ a / 2 ^ b) := by
    rw [not_le]
    have h1 := (abs_le.mp hbound).2
    have h2 : (2 : ℚ) ^ k / 2 ^ 53 ≤ 2 ^ (k + 1) := by
      rw [div_le_iff₀ (by positivity)]
      have : (2 : ℚ) ^ k ≤ 2 ^ (k + 1) := pow_le_pow_right₀ (by norm_num) (by omega)
      have h53 : (1 : ℚ) ≤ 2 ^ 53 := one_le_pow₀ (by norm_num)
      nlinarith [pow_pos (by norm_num : (0 : ℚ) < 2) (k + 1)]
    have h3 : (2 : ℚ) ^ (k + 1) + 2 ^ (k + 1) ≤ 2 ^ (1024 : ℕ) := by
      have : (2 : ℚ) ^ (k + 1) + 2 ^ (k + 1) = 2 ^ (k + 2) := by ring
      rw [this]
      exact pow_le_pow_right₀ (by norm_num) (by omega)
    linarith
  simp [hsmall]

theorem round_error (x : ℚ) (k : ℕ) (hx0 : 0 < x) (hx : x < 2 ^ (k + 1)) (hk : k ≤ 1000) :
    ∃ v : ℚ, Double.round x = Double.finite v ∧ |v - x| ≤ 2 ^ k / 2 ^ 53 := by
  have hnum : 0 < x.num := Rat.num_pos.mpr hx0
  have hn : 0 < x.num.natAbs := Int.natAbs_pos.mpr (ne_of_gt hnum)
  have hd : 0 < x.den := x.den_pos
  have hxeq : ((x.num.natAbs : ℕ) : ℚ) / (x.den : ℚ) = x := by
    have h2 : ((x.num.natAbs : ℕ) : ℚ) = (x.num : ℚ) := by
      rw [Nat.cast_natAbs, abs_of_pos hnum]
    rw [h2]
    exact Rat.num_div_den x
  have hlt : x.num.natAbs < x.den * 2 ^ (k + 1) := by
    have hdq : (0 : ℚ) < (x.den : ℚ) := by exact_mod_cast hd
    have h1 : ((x.num.natAbs : ℕ) : ℚ) < (x.den : ℚ) * 2 ^ (k + 1) := by
      rw [← hxeq] at hx
      rw [div_lt_iff₀ hdq] at hx
      linarith
    have h2 : ((x.num.natAbs : ℕ) : ℚ) < ((x.den * 2 ^ (k + 1) : ℕ) : ℚ) := by
      push_cast
      exact h1
    exact_mod_cast h2
  obtain ⟨v, hv, herr⟩ := roundPos_error x.num.natAbs x.den k hn hd hlt hk
  refine ⟨v, ?_, by rw [hxeq] at herr; exact herr⟩
  unfold Double.round
  simp [ne_of_gt hx0, hx0, hv]

/-! Document loading and page layout -/

theorem pageOriginY_succ (pages : List QSizeF) (n : ℕ) (size : QSizeF)
    (hsize : pages[n]? = some size) :
    pageOriginY pages (n + 1) = (pageOriginY pages n).add (size.height.add 20) := by
  unfold pageOriginY
  rw [List.take_succ, hsize, List.foldl_append]
  rfl

theorem foldl_origin_natCast (l : List QSizeF) :
    ∀ (hs : List ℕ) (acc : ℕ),
      l.map (fun p => p.height) = hs.map (fun n : ℕ => Double.finite (n : ℚ)) →
      acc + (hs.map (fun n : ℕ => n + 20)).sum < 2 ^ 53 →
      l.foldl (fun y p => y.add (p.height.add 20)) (Double.finite (acc : ℚ))
        = Double.finite ((acc + (hs.map (fun n : ℕ => n + 20)).sum : ℕ) : ℚ) := by
  induction l with
  | nil =>
    intro hs acc hmap _
    cases hs with
    | nil => simp
    | cons h rest => simp at hmap
  | cons p rest ih =>
    intro hs acc hmap hsum
    cases hs with
    | nil => simp at hmap
    | cons h hs1 =>
      simp only [List.map_cons, List.cons.injEq] at hmap
      have hp : p.height = Double.finite (h : ℚ) := hmap.1
      have hrest := hmap.2
      simp only [List.map_cons, List.sum_cons] at hsum ⊢
      have hstep : (Double.finite (acc : ℚ)).add (p.height.add 20)
          = Double.finite ((acc + (h + 20) : ℕ) : ℚ) := by
        rw [hp]
        show (Double.finite (acc : ℚ)).add
          ((Double.finite (h : ℚ)).add (Double.finite ((20 : ℕ) : ℚ))) = _
        rw [add_natCast h 20 (by omega), add_natCast acc (h + 20) (by omega)]
      rw [List.foldl_cons, hstep, ih hs1 (acc + (h + 20)) hrest (by omega)]
      congr 2
      omega

theorem openPdfPages_append (doc : QPdfDocument) (l1 l2 : List ℕ) :
    ∀ st : AnnotationScene × Double,
      MainWindow.openPdfPages doc (l1 ++ l2) st
        = (MainWindow.openPdfPages doc l1 st).bind (MainWindow.openPdfPages doc l2) := by
  induction l1 with
  | nil => intro st; rfl
  | cons i rest ih =>
    intro st
    simp only [List.cons_append, MainWindow.openPdfPages]
    cases MainWindow.openPdfPage doc st i with
    | none => rfl
    | some st1 => exact ih st1

theorem openPdfPage_spec (doc : QPdfDocument) (sc : AnnotationScene) (yPos : Double) (i : ℕ)
    (size : QSizeF) (width height : ℤ) (hsize : doc.pages[i]? = some size)
    (hwidth : qrealToInt size.width = some width)
    (hheight : qrealToInt size.height = some height) :
    ∃ st : AnnotationScene × Double,
      MainWindow.openPdfPage doc (sc, yPos) i = some st ∧
      st.2 = yPos.add (size.height.add 20) ∧
      st.1.nextHandle = sc.nextHandle + 2 ∧
      st.1.items = sc.items ++
        [(sc.nextHandle, QGraphicsItem.pixmap ⟨i, ⟨width, height⟩, ⟨0, yPos⟩⟩),
         (sc.nextHandle + 1, QGraphicsItem.rect
            ⟨⟨0, 0, size.width, size.height⟩, Qt.white, QPen.ofColor Qt.gray,
              Double.finite (-1), ⟨0, yPos⟩⟩)] := by
  have hpage : doc.pagePointSize i = size := by
    simp [QPdfDocument.pagePointSize, List.getD_eq_getElem?_getD, hsize]
  refine ⟨({ sc with
      items := sc.items ++
        [(sc.nextHandle, QGraphicsItem.pixmap ⟨i, ⟨width, height⟩, ⟨0, yPos⟩⟩),
         (sc.nextHandle + 1, QGraphicsItem.rect
            ⟨⟨0, 0, size.width, size.height⟩, Qt.white, QPen.ofColor Qt.gray,
              Double.finite (-1), ⟨0, yPos⟩⟩)]
      nextHandle := sc.nextHandle + 2 }, yPos.add (size.height.add 20)), ?_, rfl, rfl, rfl⟩
  simp [MainWindow.openPdfPage, hpage, hwidth, hheight, AnnotationScene.addItem,
    MainWindow.pageSpacing]

theorem openPdf_loop (doc : QPdfDocument) (sc : AnnotationScene) (hempty : sc.items = [])
    (hsizes : ∀ p ∈ doc.pages,
      (qrealToInt p.width).isSome = true ∧ (qrealToInt p.height).isSome = true) :
    ∀ n, n ≤ doc.pageCount →
      ∃ st : AnnotationScene × Double,
        MainWindow.openPdfPages doc (List.range n) (sc, 0) = some st ∧
        st.2 = pageOriginY doc.pages n ∧
        st.1.nextHandle = sc.nextHandle + 2 * n ∧
        st.1.items.length = 2 * n ∧
        ∀ i size width height, i < n → doc.pages[i]? = some size →
          qrealToInt size.width = some width → qrealToInt size.height = some height →
          st.1.items[2 * i]?
            = some (sc.nextHandle + 2 * i, QGraphicsItem.pixmap
                ⟨i, ⟨width, height⟩, ⟨0, pageOriginY doc.pages i⟩⟩) ∧
          st.1.items[2 * i + 1]?
            = some (sc.nextHandle + 2 * i + 1, QGraphicsItem.rect
                ⟨⟨0, 0, size.width, size.height⟩, Qt.white, QPen.ofColor Qt.gray,
                  Double.finite (-1), ⟨0, pageOriginY doc.pages i⟩⟩) := by
  intro n
  induction n with
  | zero =>
    intro _
    refine ⟨(sc, 0), rfl, rfl, rfl, by simp [hempty], ?_⟩
    intro i size width height hi
    omega
  | succ n ih =>
    intro hn
    obtain ⟨st, hrun, hy, hnext, hlen, hitems⟩ := ih (Nat.le_of_succ_le hn)
    obtain ⟨s, y⟩ := st
    simp only at hy hnext hlen hitems
    have hlt : n < doc.pages.length := hn
    have hsizeN : doc.pages[n]? = some (doc.pages.get ⟨n, hlt⟩) := List.getElem?_eq_getElem hlt
    obtain ⟨hw, hh⟩ := hsizes (doc.pages.get ⟨n, hlt⟩) (List.get_mem _ _ _)
    obtain ⟨width, hwidth⟩ := Option.isSome_iff_exists.mp hw
    obtain ⟨height, hheight⟩ := Option.isSome_iff_exists.mp hh
    obtain ⟨st1, hstep, hy1, hnext1, hitems1⟩ :=
      openPdfPage_spec doc s y n _ width height hsizeN hwidth hheight
    refine ⟨st1, ?_, ?_, ?_, ?_, ?_⟩
    · rw [List.range_succ, openPdfPages_append, hrun]
      simp only [Option.some_bind, MainWindow.openPdfPages, hstep]
    · rw [hy1, pageOriginY_succ doc.pages n _ hsizeN, hy]
    · rw [hnext1, hnext]; omega
    · rw [hitems1]
      simp only [List.length_append, hlen, List.length_cons, List.length_nil]
      omega
    · intro i size w1 h1 hi hsize hw1 hh1
      rw [hitems1]
      by_cases hin : i < n
      · obtain ⟨h1', h2'⟩ := hitems i size w1 h1 hin hsize hw1 hh1
        constructor
        · rw [List.getElem?_append_left (by omega)]
          exact h1'
        · rw [List.getElem?_append_left (by omega)]
          exact h2'
      · have hi_eq : i = n := by omega
        subst hi_eq
        have hs : doc.pages.get ⟨i, hlt⟩ = size := by
          rw [hsizeN] at hsize
          exact Option.some.inj hsize
        rw [hs] at hwidth hheight
        have hwe : width = w1 := by
          rw [hwidth] at hw1; exact Option.some.inj hw1
        have hhe : height = h1 := by
          rw [hheight] at hh1; exact Option.some.inj hh1
        constructor
        · rw [List.getElem?_append_right (by omega), hlen, hnext, hs, hy, hwe, hhe]
          simp
        · rw [List.getElem?_append_right (by omega), hlen, hnext, hs, hy]
          simp

theorem openPdf_ready (w : MainWindow) (filePath : String) (doc : QPdfDocument)
    (hpath : filePath.isEmpty = false) (hready : doc.status = Status.Ready) :
    w.openPdf filePath doc
      = (MainWindow.openPdfPages doc (List.range doc.pageCount) (w.m_scene.clear, 0)).map
          (fun st => { w with m_scene := st.1, m_pdfDocument := some doc }) := by
  simp only [MainWindow.openPdf, hpath, hready]
  cases MainWindow.openPdfPages doc (List.range doc.pageCount) (w.m_scene.clear, 0) <;> simp

theorem openPdf_ready_items (w : MainWindow) (filePath : String) (doc : QPdfDocument)
    (hpath : filePath.isEmpty = false) (hready : doc.status = Status.Ready)
    (hsizes : ∀ p ∈ doc.pages,
      (qrealToInt p.width).isSome = true ∧ (qrealToInt p.height).isSome = true) :
    ∃ w1 : MainWindow, w.openPdf filePath doc = some w1 ∧
      w1.m_scene.items.length = 2 * doc.pages.length ∧
      ∀ i size width height, doc.pages[i]? = some size →
        qrealToInt size.width = some width → qrealToInt size.height = some height →
        (w1.m_scene.items.map Prod.snd)[2 * i]?
          = some (QGraphicsItem.pixmap
              ⟨i, ⟨width, height⟩, ⟨0, pageOriginY doc.pages i⟩⟩) ∧
        (w1.m_scene.items.map Prod.snd)[2 * i + 1]?
          = some (QGraphicsItem.rect
              ⟨⟨0, 0, size.width, size.height⟩, Qt.white, QPen.ofColor Qt.gray,
                Double.finite (-1), ⟨0, pageOriginY doc.pages i⟩⟩) := by
  obtain ⟨st, hrun, _, _, hlen, hitems⟩ :=
    openPdf_loop doc w.m_scene.clear rfl hsizes doc.pageCount (Nat.le_refl _)
  refine ⟨{ w with m_scene := st.1, m_pdfDocument := some doc }, ?_, hlen, ?_⟩
  · rw [openPdf_ready w filePath doc hpath hready, hrun]
    rfl
  · intro i size width height hsize hwidth hheight
    have hi : i < doc.pageCount := (List.getElem?_eq_some_iff.mp hsize).1
    obtain ⟨h1, h2⟩ := hitems i size width height hi hsize hwidth hheight
    simp only [List.getElem?_map, h1, h2, Option.map_some']
    exact ⟨trivial, trivial⟩

theorem qrealToInt_nonneg_lt (h : ℚ) (t : ℤ) (ht : qrealToInt (Double.finite h) = some t)
    (h0 : 0 ≤ h) : h < 2147483648 := by
  have hnum : 0 ≤ h.num := Rat.num_nonneg.mpr h0
  have hden : (0 : ℤ) < (h.den : ℤ) := by exact_mod_cast h.den_pos
  have hle : Int.tdiv h.num h.den ≤ 2147483647 := by
    by_contra hnot
    simp [qrealToInt, hnot] at ht
  rw [Int.tdiv_eq_ediv hnum (le_of_lt hden)] at hle
  have hlt : h.num < (h.num / (h.den : ℤ) + 1) * (h.den : ℤ) :=
    Int.lt_ediv_add_one_mul_self h.num hden
  have hlt2 : h.num < 2147483648 * (h.den : ℤ) := by
    have : (h.num / (h.den : ℤ) + 1) * (h.den : ℤ) ≤ 2147483648 * (h.den : ℤ) :=
      Int.mul_le_mul_of_nonneg_right (by omega) (le_of_lt hden)
    omega
  have hq : (h.num : ℚ) < 2147483648 * (h.den : ℚ) := by exact_mod_cast hlt2
  have hdq : (0 : ℚ) < (h.den : ℚ) := by exact_mod_cast h.den_pos
  calc h = (h.num : ℚ) / (h.den : ℚ) := (Rat.num_div_den h).symm
    _ < 2147483648 := by rw [div_lt_iff₀ hdq]; exact hq

theorem height_of_sizes (height : Double)
    (hconv : (qrealToInt height).isSome = true) (hnonneg : (0 : Double).le height = true) :
    ∃ h : ℚ, height = Double.finite h ∧ 0 ≤ h ∧ h < 2147483648 := by
  cases height with
  | finite h =>
    obtain ⟨t, ht⟩ := Option.isSome_iff_exists.mp hconv
    have h0 : (0 : ℚ) ≤ h := by
      have : decide (((0 : ℕ) : ℚ) ≤ h) = true := hnonneg
      simpa using this
    exact ⟨h, rfl, h0, qrealToInt_nonneg_lt h t ht h0⟩
  | posInf => simp [qrealToInt] at hconv
  | negInf => simp [qrealToInt] at hconv
  | nan => simp [qrealToInt] at hconv

theorem add_step_increases (ya h : ℚ) (hya : 0 ≤ ya) (hh : 0 ≤ h) (hh31 : h < 2147483648)
    (hsum : ya + h + 21 ≤ 2 ^ 58) :
    ∃ yb : ℚ, (Double.finite ya).add ((Double.finite h).add 20) = Double.finite yb ∧
      ya < yb ∧ ya + h < yb ∧ |yb - (ya + h + 20)| ≤ 17 := by
  obtain ⟨d, hd, hderr⟩ := round_error (h + 20) 31 (by linarith) (by norm_num; linarith)
    (by norm_num)
  have hd1 := abs_le.mp hderr
  have hsmall : (2 : ℚ) ^ 31 / 2 ^ 53 ≤ 1 / 2 := by norm_num
  obtain ⟨yb, hyb, hyberr⟩ := round_error (ya + d) 57 (by linarith [hd1.1])
    (by norm_num at hsum ⊢; linarith [hd1.2]) (by norm_num)
  have hyb1 := abs_le.mp hyberr
  have h16 : (2 : ℚ) ^ 57 / 2 ^ 53 = 16 := by norm_num
  rw [h16] at hyb1
  refine ⟨yb, ?_, by linarith [hd1.1, hyb1.1], by linarith [hd1.1, hyb1.1], ?_⟩
  · show Double.add (Double.finite ya) (Double.round (h + ((20 : ℕ) : ℚ))) = _
    rw [Nat.cast_ofNat, hd]
    exact hyb
  · rw [abs_le]
    constructor <;> linarith [hd1.1, hd1.2, hyb1.1, hyb1.2]

theorem pageOriginY_bounds (pages : List QSizeF)
    (hsizes : ∀ p ∈ pages,
      (qrealToInt p.width).isSome = true ∧ (qrealToInt p.height).isSome = true)
    (hnonneg : ∀ p ∈ pages, (0 : Double).le p.height = true) :
    ∀ i, i ≤ pages.length → i ≤ 2 ^ 26 →
      ∃ y : ℚ, pageOriginY pages i = Double.finite y ∧ 0 ≤ y ∧ y ≤ (i : ℚ) * 2147483685 := by
  intro i
  induction i with
  | zero =>
    intro _ _
    exact ⟨0, by simp [pageOriginY]; rfl, le_refl _, by simp⟩
  | succ i ih =>
    intro hlen hmax
    obtain ⟨y, hy, hy0, hybound⟩ := ih (by omega) (by omega)
    have hlt : i < pages.length := hlen
    have hsize : pages[i]? = some (pages.get ⟨i, hlt⟩) := List.getElem?_eq_getElem hlt
    have hmem : pages.get ⟨i, hlt⟩ ∈ pages := List.get_mem _ _ _
    obtain ⟨h, hh, hh0, hh31⟩ :=
      height_of_sizes _ (hsizes _ hmem).2 (hnonneg _ hmem)
    have hi26 : (i : ℚ) + 1 ≤ 2 ^ 26 := by exact_mod_cast hmax
    have hsum : y + h + 21 ≤ 2 ^ 58 := by
      have : (i : ℚ) * 2147483685 + 2147483648 + 21 ≤ 2 ^ 58 := by
        norm_num at hi26 ⊢
        linarith
      linarith
    obtain ⟨yb, hyb, hlt1, _, herr⟩ := add_step_increases y h hy0 hh0 hh31 hsum
    refine ⟨yb, ?_, by linarith, ?_⟩
    · rw [pageOriginY_succ pages i _ hsize, hy, hh]
      exact hyb
    · have := (abs_le.mp herr).2
      push_cast
      linarith

/-- Counterexample to C1 as stated: a new window loads a Ready document whose
pages are 600 x 0.1 and 600 x 800, 0.1 being the `double` nearest to one tenth.
Page 1 is placed at y = 2828823515942093 / 2^47 (about 20.100000000000001421),
the rounded `double` sum, which is not the sum of the first height and 20. -/
theorem page_origin_is_rounded :
    Double.round (1 / 10) = Double.finite (3602879701896397 / 36028797018963968) ∧
    ((MainWindow.new none).openPdf "doc.pdf"
        ⟨Status.Ready, [⟨600, Double.round (1 / 10)⟩, ⟨600, 800⟩]⟩).map
      (fun w => w.m_scene.items.map (fun e => e.2.pagePos))
      = some [some ⟨0, 0⟩, some ⟨0, 0⟩,
          some ⟨0, Double.finite (2828823515942093 / 140737488355328)⟩,
          some ⟨0, Double.finite (2828823515942093 / 140737488355328)⟩] ∧
    (2828823515942093 / 140737488355328 : ℚ) ≠ 3602879701896397 / 36028797018963968 + 20 := by
  refine ⟨by decide!, by decide!, by norm_num⟩

/-- C1, amended: after an `openPdf` that loads a Ready document all of whose
page extents convert to `int`, the scene holds two items per page, in page
order: for page `i` of size `size`, the pixmap of page `i` and then its
background rectangle of that size, both positioned at x = 0 and
y = `pageOriginY doc.pages i`.  That origin is 0 for page 0 and, for each next
page, the origin of the page before plus (its height plus 20), both additions
being `double` additions, rounded to nearest.  When the heights before page `i`
are whole numbers and the sum of `height + 20` over them is below 2^53, nothing
is rounded and the origin is exactly that sum; so for the sizes 600x800 and
600x1000 the origins are (0,0) and (0,820). -/
theorem openPdf_places_pages (w : MainWindow) (filePath : String) (doc : QPdfDocument)
    (hpath : filePath.isEmpty = false) (hready : doc.status = Status.Ready)
    (hsizes : ∀ p ∈ doc.pages,
      (qrealToInt p.width).isSome = true ∧ (qrealToInt p.height).isSome = true) :
    (∃ w1 : MainWindow, w.openPdf filePath doc = some w1 ∧
      w1.m_scene.items.length = 2 * doc.pages.length ∧
      ∀ i size width height, doc.pages[i]? = some size →
        qrealToInt size.width = some width → qrealToInt size.height = some height →
        (w1.m_scene.items.map Prod.snd)[2 * i]?
          = some (QGraphicsItem.pixmap
              ⟨i, ⟨width, height⟩, ⟨0, pageOriginY doc.pages i⟩⟩) ∧
        (w1.m_scene.items.map Prod.snd)[2 * i + 1]?
          = some (QGraphicsItem.rect
              ⟨⟨0, 0, size.width, size.height⟩, Qt.white, QPen.ofColor Qt.gray,
                Double.finite (-1), ⟨0, pageOriginY doc.pages i⟩⟩)) ∧
    pageOriginY doc.pages 0 = 0 ∧
    (∀ i size, doc.pages[i]? = some size →
      pageOriginY doc.pages (i + 1) = (pageOriginY doc.pages i).add (size.height.add 20)) ∧
    (∀ i (hs : List ℕ),
      (doc.pages.take i).map (fun p => p.height) = hs.map (fun n : ℕ => Double.finite (n : ℚ)) →
      (hs.map (fun n : ℕ => n + 20)).sum < 2 ^ 53 →
      pageOriginY doc.pages i
        = Double.finite (((hs.map (fun n : ℕ => n + 20)).sum : ℕ) : ℚ)) ∧
    pageOriginY [⟨600, 800⟩, ⟨600, 1000⟩] 0 = 0 ∧
    pageOriginY [⟨600, 800⟩, ⟨600, 1000⟩] 1 = 820 := by
  refine ⟨openPdf_ready_items w filePath doc hpath hready hsizes, ?_,
    fun i size hsize => pageOriginY_succ doc.pages i size hsize, ?_, by decide!, by decide!⟩
  · simp [pageOriginY]
  · intro i hs hmap hsum
    have h := foldl_origin_natCast (doc.pages.take i) hs 0 hmap (by omega)
    unfold pageOriginY
    have h0 : (0 : Double) = Double.finite ((0 : ℕ) : ℚ) := rfl
    rw [h0, h]
    congr 2
    omega

/-- Witness for C1, amended: a new window loads a Ready document with pages
600x800 and 600x1000; the page items sit at (0,0) and (0,820). -/
theorem openPdf_places_pages_witness :
    ("doc.pdf").isEmpty = false ∧
    ∃ w1 : MainWindow,
      (MainWindow.new none).openPdf "doc.pdf" ⟨Status.Ready, [⟨600, 800⟩, ⟨600, 1000⟩]⟩
        = some w1 ∧
      (w1.m_scene.items.map Prod.snd)[0]?
        = some (QGraphicsItem.pixmap ⟨0, ⟨600, 800⟩, ⟨0, 0⟩⟩) ∧
      (w1.m_scene.items.map Prod.snd)[1]?
        = some (QGraphicsItem.rect
            ⟨⟨0, 0, 600, 800⟩, Qt.white, QPen.ofColor Qt.gray, Double.finite (-1), ⟨0, 0⟩⟩) ∧
      (w1.m_scene.items.map Prod.snd)[2]?
        = some (QGraphicsItem.pixmap ⟨1, ⟨600, 1000⟩, ⟨0, 820⟩⟩) ∧
      (w1.m_scene.items.map Prod.snd)[3]?
        = some (QGraphicsItem.rect
            ⟨⟨0, 0, 600, 1000⟩, Qt.white, QPen.ofColor Qt.gray, Double.finite (-1),
              ⟨0, 820⟩⟩) := by
  have hsizes : ∀ p ∈ (⟨Status.Ready, [⟨600, 800⟩, ⟨600, 1000⟩]⟩ : QPdfDocument).pages,
      (qrealToInt p.width).isSome = true ∧ (qrealToInt p.height).isSome = true := by
    intro p hp
    simp only [List.mem_cons, List.mem_singleton, List.not_mem_nil, or_false] at hp
    rcases hp with rfl | rfl <;> exact ⟨by decide!, by decide!⟩
  obtain ⟨⟨w1, hrun, _, hitems⟩, _, _, _, h0, h1⟩ :=
    openPdf_places_pages (MainWindow.new none) "doc.pdf"
      ⟨Status.Ready, [⟨600, 800⟩, ⟨600, 1000⟩]⟩ (by decide) rfl hsizes
  have hp0 := hitems 0 ⟨600, 800⟩ 600 800 rfl (by decide!) (by decide!)
  have hp1 := hitems 1 ⟨600, 1000⟩ 600 1000 rfl (by decide!) (by decide!)
  simp only [h0, h1] at hp0 hp1
  exact ⟨by decide, w1, hrun, hp0.1, hp0.2, hp1.1, hp1.2⟩

/-- Counterexample to C2 as stated: a new window loads a Ready document with
pages 595.28 x 841.89, 595.28 x 111.2 and 595.28 x 841.89 (each number the
nearest `double`).  Page 1 is placed at y = 861.89 and page 2 at
y = 993.0899999999999, which is less than the origin of page 1 plus its height
plus 20, both as an exact sum and as the `double` sum 993.09: the step from
page 1 to page 2 falls short of height + spacing. -/
theorem page_origin_step_falls_short :
    ((MainWindow.new none).openPdf "doc.pdf"
        ⟨Status.Ready,
          [⟨Double.round (59528 / 100), Double.round (84189 / 100)⟩,
           ⟨Double.round (59528 / 100), Double.round (1112 / 10)⟩,
           ⟨Double.round (59528 / 100), Double.round (84189 / 100)⟩]⟩).map
      (fun w => w.m_scene.items.map (fun e => e.2.pagePos))
      = some [some ⟨0, 0⟩, some ⟨0, 0⟩,
          some ⟨0, Double.finite (7581264614910853 / 8796093022208)⟩,
          some ⟨0, Double.finite (7581264614910853 / 8796093022208)⟩,
          some ⟨0, Double.finite (4367656009712271 / 4398046511104)⟩,
          some ⟨0, Double.finite (4367656009712271 / 4398046511104)⟩] ∧
    Double.round (1112 / 10) = Double.finite (7825004352556237 / 70368744177664) ∧
    (4367656009712271 / 4398046511104 : ℚ)
      < 7581264614910853 / 8796093022208 + 7825004352556237 / 70368744177664 + 20 ∧
    (Double.finite (4367656009712271 / 4398046511104)).lt
      (((Double.finite (7581264614910853 / 8796093022208)).add
        (Double.round (1112 / 10))).add 20) = true := by
  refine ⟨by decide!, by decide!, by norm_num, by decide!⟩

/-- C2, amended: after an `openPdf` that loads a Ready document all of whose
page extents convert to `int`, for every page `i` of size `size` that has a
successor, the two items of page `i` sit at one origin `a`, the two items of
page `i + 1` at one origin `b`, both with x = 0, and `b.y` is the `double` sum
of `a.y` and (the height plus 20).  Whenever neither of the two additions
rounds, `b.y` is exactly `a.y + height + 20`, hence strictly greater than `a.y`
for a height above -20; this is the case whenever `a.y` and the height are
whole numbers with `a.y + height + 20` below 2^53.  And in every document of at
most 2^26 pages with no negative page height, `b.y` is strictly greater than
`a.y` and than the bottom edge `a.y + height` of page `i`, and lies within 17
of `a.y + height + 20`. -/
theorem page_origin_steps (w : MainWindow) (filePath : String) (doc : QPdfDocument)
    (hpath : filePath.isEmpty = false) (hready : doc.status = Status.Ready)
    (hsizes : ∀ p ∈ doc.pages,
      (qrealToInt p.width).isSome = true ∧ (qrealToInt p.height).isSome = true) :
    ∃ w1 : MainWindow, w.openPdf filePath doc = some w1 ∧
      ∀ i size, doc.pages[i]? = some size → i + 1 < doc.pages.length →
        ∃ a b : QPointF,
          ((w1.m_scene.items.map Prod.snd)[2 * i]?).bind QGraphicsItem.pagePos = some a ∧
          ((w1.m_scene.items.map Prod.snd)[2 * i + 1]?).bind QGraphicsItem.pagePos = some a ∧
          ((w1.m_scene.items.map Prod.snd)[2 * (i + 1)]?).bind QGraphicsItem.pagePos
            = some b ∧
          ((w1.m_scene.items.map Prod.snd)[2 * (i + 1) + 1]?).bind QGraphicsItem.pagePos
            = some b ∧
          a.x = 0 ∧ b.x = 0 ∧
          b.y = a.y.add (size.height.add 20) ∧
          (∀ ya h : ℚ, a.y = Double.finite ya → size.height = Double.finite h →
            Double.round (h + 20) = Double.finite (h + 20) →
            Double.round (ya + (h + 20)) = Double.finite (ya + (h + 20)) →
            b.y = Double.finite (ya + h + 20) ∧ (-20 < h → a.y.lt b.y = true)) ∧
          (∀ ya h : ℕ, a.y = Double.finite (ya : ℚ) → size.height = Double.finite (h : ℚ) →
            ya + h + 20 < 2 ^ 53 →
            b.y = Double.finite ((ya + h + 20 : ℕ) : ℚ) ∧ a.y.lt b.y = true) ∧
          (doc.pages.length ≤ 2 ^ 26 →
            (∀ p ∈ doc.pages, (0 : Double).le p.height = true) →
            ∃ ya h yb : ℚ, a.y = Double.finite ya ∧ size.height = Double.finite h ∧
              b.y = Double.finite yb ∧ 0 ≤ ya ∧ 0 ≤ h ∧ ya < yb ∧ ya + h < yb ∧
              |yb - (ya + h + 20)| ≤ 17 ∧ a.y.lt b.y = true) := by
  obtain ⟨w1, hrun, _, hitems⟩ := openPdf_ready_items w filePath doc hpath hready hsizes
  refine ⟨w1, hrun, ?_⟩
  intro i size hsize hnext
  have hsize1 : doc.pages[i + 1]? = some (doc.pages.get ⟨i + 1, hnext⟩) :=
    List.getElem?_eq_getElem hnext
  have hmem : size ∈ doc.pages := by
    obtain ⟨hi, hget⟩ := List.getElem?_eq_some_iff.mp hsize
    rw [← hget]
    exact List.getElem_mem hi
  obtain ⟨hw0, hh0⟩ := hsizes size hmem
  obtain ⟨width0, hwidth0⟩ := Option.isSome_iff_exists.mp hw0
  obtain ⟨height0, hheight0⟩ := Option.isSome_iff_exists.mp hh0
  obtain ⟨hw1, hh1⟩ := hsizes (doc.pages.get ⟨i + 1, hnext⟩) (List.get_mem _ _ _)
  obtain ⟨width1, hwidth1⟩ := Option.isSome_iff_exists.mp hw1
  obtain ⟨height1, hheight1⟩ := Option.isSome_iff_exists.mp hh1
  obtain ⟨ha1, ha2⟩ := hitems i size width0 height0 hsize hwidth0 hheight0
  obtain ⟨hb1, hb2⟩ := hitems (i + 1) _ width1 height1 hsize1 hwidth1 hheight1
  have hstep := pageOriginY_succ doc.pages i size hsize
  refine ⟨⟨0, pageOriginY doc.pages i⟩, ⟨0, pageOriginY doc.pages (i + 1)⟩, ?_, ?_, ?_, ?_,
    rfl, rfl, hstep, ?_, ?_, ?_⟩
  · rw [ha1]; rfl
  · rw [ha2]; rfl
  · rw [hb1]; rfl
  · rw [hb2]; rfl
  · intro ya h hya hh hexact1 hexact2
    simp only at hya
    have hb : pageOriginY doc.pages (i + 1) = Double.finite (ya + h + 20) := by
      rw [hstep, hya, hh]
      show Double.add (Double.finite ya) (Double.round (h + ((20 : ℕ) : ℚ))) = _
      rw [Nat.cast_ofNat, hexact1]
      show Double.round (ya + (h + 20)) = _
      rw [hexact2, add_assoc]
    refine ⟨hb, ?_⟩
    intro hpos
    show Double.lt (pageOriginY doc.pages i) (pageOriginY doc.pages (i + 1)) = true
    rw [hb, hya]
    show decide (ya < ya + h + 20) = true
    rw [decide_eq_true_eq]
    linarith
  · intro ya h hya hh hsum
    simp only at hya
    have hb : pageOriginY doc.pages (i + 1) = Double.finite ((ya + h + 20 : ℕ) : ℚ) := by
      rw [hstep, hya, hh]
      show Double.add (Double.finite (ya : ℚ))
        (Double.add (Double.finite (h : ℚ)) (Double.finite ((20 : ℕ) : ℚ))) = _
      rw [add_natCast h 20 (by omega), add_natCast ya (h + 20) (by omega)]
      congr 2
    refine ⟨hb, ?_⟩
    show Double.lt (pageOriginY doc.pages i) (pageOriginY doc.pages (i + 1)) = true
    rw [hb, hya]
    show decide ((ya : ℚ) < ((ya + h + 20 : ℕ) : ℚ)) = true
    rw [decide_eq_true_eq]
    exact_mod_cast (by omega : ya < ya + h + 20)
  · intro hpages hnonneg
    obtain ⟨ya, hya, hya0, hyabound⟩ :=
      pageOriginY_bounds doc.pages hsizes hnonneg i (by omega) (by omega)
    obtain ⟨h, hh, hh0, hh31⟩ := height_of_sizes size.height hh0 (hnonneg size hmem)
    have hi26 : (i : ℚ) + 2 ≤ 2 ^ 26 := by
      have : i + 2 ≤ 2 ^ 26 := by omega
      exact_mod_cast this
    have hsum : ya + h + 21 ≤ 2 ^ 58 := by
      have : (i : ℚ) * 2147483685 + 2147483648 + 21 ≤ 2 ^ 58 := by
        norm_num at hi26 ⊢
        linarith
      linarith
    obtain ⟨yb, hyb, hlt1, hlt2, herr⟩ := add_step_increases ya h hya0 hh0 hh31 hsum
    have hb : pageOriginY doc.pages (i + 1) = Double.finite yb := by
      rw [hstep, hya, hh]
      exact hyb
    refine ⟨ya, h, yb, hya, hh, hb, hya0, hh0, hlt1, hlt2, herr, ?_⟩
    show Double.lt (pageOriginY doc.pages i) (pageOriginY doc.pages (i + 1)) = true
    rw [hb, hya]
    show decide (ya < yb) = true
    rw [decide_eq_true_eq]
    exact hlt1

/-- Witness for C2, amended: pages 600x800 and 600x1000 loaded into a new
window: page 0 at y = 0, page 1 at y = 820, strictly below. -/
theorem page_origin_steps_witness :
    ∃ w1 : MainWindow,
      (MainWindow.new none).openPdf "doc.pdf" ⟨Status.Ready, [⟨600, 800⟩, ⟨600, 1000⟩]⟩
        = some w1 ∧
      ∃ a b : QPointF,
        ((w1.m_scene.items.map Prod.snd)[2 * 0]?).bind QGraphicsItem.pagePos = some a ∧
        ((w1.m_scene.items.map Prod.snd)[2 * (0 + 1)]?).bind QGraphicsItem.pagePos = some b ∧
        b.y = a.y.add ((800 : Double).add 20) ∧ a.y.lt b.y = true := by
  have hsizes : ∀ p ∈ (⟨Status.Ready, [⟨600, 800⟩, ⟨600, 1000⟩]⟩ : QPdfDocument).pages,
      (qrealToInt p.width).isSome = true ∧ (qrealToInt p.height).isSome = true := by
    intro p hp
    simp only [List.mem_cons, List.mem_singleton, List.not_mem_nil, or_false] at hp
    rcases hp with rfl | rfl <;> exact ⟨by decide!, by decide!⟩
  have hnonneg : ∀ p ∈ (⟨Status.Ready, [⟨600, 800⟩, ⟨600, 1000⟩]⟩ : QPdfDocument).pages,
      (0 : Double).le p.height = true := by
    intro p hp
    simp only [List.mem_cons, List.mem_singleton, List.not_mem_nil, or_false] at hp
    rcases hp with rfl | rfl <;> decide!
  obtain ⟨w1, hrun, hall⟩ :=
    page_origin_steps (MainWindow.new none) "doc.pdf"
      ⟨Status.Ready, [⟨600, 800⟩, ⟨600, 1000⟩]⟩ (by decide) rfl hsizes
  obtain ⟨a, b, h1, _, h3, _, _, _, h7, _, _, hstrict⟩ := hall 0 ⟨600, 800⟩ rfl (by decide)
  obtain ⟨_, _, _, _, _, _, _, _, _, _, _, hlt⟩ := hstrict (by decide) hnonneg
  exact ⟨w1, hrun, a, b, h1, h3, h7, hlt⟩

theorem openPdfPage_frame (doc : QPdfDocument) (st st1 : AnnotationScene × Double) (i : ℕ)
    (hstep : MainWindow.openPdfPage doc st i = some st1) :
    st1.1.m_drawing = st.1.m_drawing ∧ st1.1.m_currentPath = st.1.m_currentPath ∧
    (st.1.WellFormed → st1.1.WellFormed) := by
  cases hw : qrealToInt (doc.pagePointSize i).width with
  | none => simp [MainWindow.openPdfPage, hw] at hstep
  | some width =>
    cases hh : qrealToInt (doc.pagePointSize i).height with
    | none => simp [MainWindow.openPdfPage, hw, hh] at hstep
    | some height =>
      simp only [MainWindow.openPdfPage, hw, hh, Option.some.injEq] at hstep
      subst hstep
      refine ⟨rfl, rfl, ?_⟩
      intro hwf e he
      simp only [AnnotationScene.addItem, List.append_assoc, List.mem_append, List.mem_cons,
        List.mem_singleton, List.not_mem_nil, or_false] at he ⊢
      rcases he with he | rfl | rfl
      · have := hwf e he
        omega
      · simp only; omega
      · simp only; omega

theorem openPdfPages_frame (doc : QPdfDocument) (l : List ℕ) :
    ∀ st st1 : AnnotationScene × Double, MainWindow.openPdfPages doc l st = some st1 →
      st1.1.m_drawing = st.1.m_drawing ∧ st1.1.m_currentPath = st.1.m_currentPath ∧
      (st.1.WellFormed → st1.1.WellFormed) := by
  induction l with
  | nil =>
    intro st st1 hrun
    simp only [MainWindow.openPdfPages, Option.some.injEq] at hrun
    subst hrun
    exact ⟨rfl, rfl, id⟩
  | cons i rest ih =>
    intro st st1 hrun
    simp only [MainWindow.openPdfPages] at hrun
    cases hstep : MainWindow.openPdfPage doc st i with
    | none => simp [hstep] at hrun
    | some st2 =>
      simp only [hstep] at hrun
      obtain ⟨hd, hc, hwf⟩ := openPdfPage_frame doc st st2 i hstep
      obtain ⟨hd1, hc1, hwf1⟩ := ih st2 st1 hrun
      exact ⟨hd1.trans hd, hc1.trans hc, fun h => hwf1 (hwf h)⟩

theorem openPdf_frame (w w1 : MainWindow) (filePath : String) (doc : QPdfDocument)
    (hopen : w.openPdf filePath doc = some w1) :
    w1.m_scene.m_drawing = w.m_scene.m_drawing ∧
    w1.m_scene.m_currentPath = w.m_scene.m_currentPath ∧
    (w.m_scene.WellFormed → w1.m_scene.WellFormed) := by
  have hclear : w.m_scene.clear.WellFormed := by
    intro e he
    simp [AnnotationScene.clear] at he
  cases hp : filePath.isEmpty with
  | true =>
    simp only [MainWindow.openPdf, hp, if_true, Option.some.injEq] at hopen
    subst hopen
    exact ⟨rfl, rfl, id⟩
  | false =>
    by_cases hready : doc.status = Status.Ready
    · rw [openPdf_ready w filePath doc hp hready] at hopen
      cases hrun : MainWindow.openPdfPages doc (List.range doc.pageCount) (w.m_scene.clear, 0) with
      | none => simp [hrun] at hopen
      | some done =>
        simp only [hrun, Option.map_some', Option.some.injEq] at hopen
        subst hopen
        obtain ⟨hd, hc, hwf⟩ := openPdfPages_frame doc _ _ done hrun
        exact ⟨hd, hc, fun _ => hwf hclear⟩
    · simp only [MainWindow.openPdf, hp, hready, ne_eq, not_false_eq_true, if_true,
        Option.some.injEq, Bool.false_eq_true, if_false] at hopen
      subst hopen
      exact ⟨rfl, rfl, fun _ => hclear⟩

/-- C8: an `openPdf` whose document is not Ready after `load` adds no page item.
With an empty file name (dialog cancelled) the window is left as it was;
otherwise the scene ends with no item at all.  In both cases the call returns,
the scene is its previous one or the empty one, and every page item it holds
was there before. -/
theorem failed_load_adds_no_page (w : MainWindow) (filePath : String) (loaded : QPdfDocument)
    (hfail : loaded.status ≠ Status.Ready) :
    (filePath.isEmpty = true → w.openPdf filePath loaded = some w) ∧
    (filePath.isEmpty = false →
      ∃ w1 : MainWindow, w.openPdf filePath loaded = some w1 ∧ w1.m_scene.items = []) ∧
    (∃ w1 : MainWindow, w.openPdf filePath loaded = some w1 ∧
      (w1.m_scene = w.m_scene ∨ w1.m_scene.items = []) ∧
      (∀ it ∈ w1.m_scene.pageItems, it ∈ w.m_scene.pageItems)) := by
  have hcancel : filePath.isEmpty = true → w.openPdf filePath loaded = some w := by
    intro h; simp [MainWindow.openPdf, h]
  have hempty : filePath.isEmpty = false →
      ∃ w1 : MainWindow, w.openPdf filePath loaded = some w1 ∧ w1.m_scene.items = [] := by
    intro h
    exact ⟨{ w with m_scene := w.m_scene.clear, m_pdfDocument := some loaded },
      by simp [MainWindow.openPdf, h, hfail], rfl⟩
  refine ⟨hcancel, hempty, ?_⟩
  cases hp : filePath.isEmpty with
  | true => exact ⟨w, hcancel hp, Or.inl rfl, fun it hit => hit⟩
  | false =>
    obtain ⟨w1, hrun, hitems⟩ := hempty hp
    refine ⟨w1, hrun, Or.inr hitems, ?_⟩
    intro it hit
    simp [AnnotationScene.pageItems, hitems] at hit

/-- Witness for C8: a new window and a load that ends in Error. -/
theorem failed_load_adds_no_page_witness :
    (⟨Status.Error, []⟩ : QPdfDocument).status ≠ Status.Ready ∧
    ∃ w1 : MainWindow,
      (MainWindow.new none).openPdf "bad.pdf" ⟨Status.Error, []⟩ = some w1 ∧
      w1.m_scene.items = [] :=
  ⟨by decide,
   (failed_load_adds_no_page (MainWindow.new none) "bad.pdf" ⟨Status.Error, []⟩
      (by decide)).2.1 (by decide)⟩

/-- C5 on the code: a new window, a left press at (100,100), then `openPdf`
loading a one-page Ready document while the stroke is still active.  The scene
then holds the two page items only, yet `m_drawing` is still true and
`m_currentPath` still holds handle 0, the handle of the deleted stroke, which
refers to no live path item; the next move event dereferences it. -/
theorem openPdf_during_stroke_leaves_dangling_path :
    ((MainWindow.new none).actAll
        [Action.pointer (PointerEvent.press ⟨MouseButton.LeftButton, ⟨100, 100⟩⟩)]).map
      (fun w => (w.m_scene.m_drawing, w.m_scene.m_currentPath, (w.m_scene.pathItem 0).isSome))
      = some (true, some 0, true) ∧
    ((MainWindow.new none).actAll
        [Action.pointer (PointerEvent.press ⟨MouseButton.LeftButton, ⟨100, 100⟩⟩),
         Action.open_ "doc.pdf" ⟨Status.Ready, [⟨600, 800⟩]⟩]).map
      (fun w => (w.m_scene.m_drawing, w.m_scene.m_currentPath, (w.m_scene.pathItem 0).isSome,
        w.m_scene.items.length, w.m_scene.strokes.length))
      = some (true, some 0, false, 2, 0) ∧
    (MainWindow.new none).actAll
        [Action.pointer (PointerEvent.press ⟨MouseButton.LeftButton, ⟨100, 100⟩⟩),
         Action.open_ "doc.pdf" ⟨Status.Ready, [⟨600, 800⟩]⟩,
         Action.pointer (PointerEvent.move ⟨MouseButton.NoButton, ⟨100, 200⟩⟩)]
      = none := by
  refine ⟨by decide!, by decide!, by decide!⟩

/-! The view scale under wheel events -/

theorem wheelEvents_scale (evs : List QWheelEvent) :
    ∀ w : MainWindow,
      (evs.foldl MainWindow.wheelEvent w).m_view.m11
        = w.m_view.m11
          * 1.15 ^ evs.countP (fun e => e.controlModifier && decide (e.angleDeltaY > 0))
          * (1 / 1.15) ^ evs.countP (fun e => e.controlModifier && !decide (e.angleDeltaY > 0)) ∧
      (evs.foldl MainWindow.wheelEvent w).m_view.m22
        = w.m_view.m22
          * 1.15 ^ evs.countP (fun e => e.controlModifier && decide (e.angleDeltaY > 0))
          * (1 / 1.15) ^ evs.countP (fun e => e.controlModifier && !decide (e.angleDeltaY > 0)) := by
  induction evs with
  | nil => intro w; simp
  | cons e rest ih =>
    intro w
    obtain ⟨h1, h2⟩ := ih (w.wheelEvent e)
    simp only [List.foldl_cons]
    rw [h1, h2]
    cases hc : e.controlModifier with
    | false => simp [MainWindow.wheelEvent, hc]
    | true =>
      by_cases hd : e.angleDeltaY > 0
      · simp only [MainWindow.wheelEvent, hc, hd, if_true, QGraphicsView.scale,
          MainWindow.scaleFactor, List.countP_cons, Bool.true_and, decide_True, Bool.not_true,
          if_false, add_zero, pow_succ, Bool.false_eq_true]
        constructor <;> ring
      · simp only [MainWindow.wheelEvent, hc, hd, if_true, QGraphicsView.scale,
          MainWindow.scaleFactor, List.countP_cons, Bool.true_and, decide_False, Bool.not_false,
          if_false, add_zero, pow_succ, Bool.false_eq_true]
        constructor <;> ring

/-- Counterexample to C6 as stated: five Ctrl+wheel steps up from the initial
scale 1 give the scale 1.15^5 (above 2), five steps down give 1/1.15^5 (below
1/2), and no range `[minScale, maxScale]` with `0 < minScale ≤ maxScale` holds
the scale after every sequence of Ctrl+wheel events. -/
theorem zoom_scale_not_clamped :
    ((List.replicate 5 (⟨true, 120⟩ : QWheelEvent)).foldl MainWindow.wheelEvent
        (MainWindow.new none)).m_view.m11 = 1.15 ^ 5 ∧
    ((List.replicate 5 (⟨true, -120⟩ : QWheelEvent)).foldl MainWindow.wheelEvent
        (MainWindow.new none)).m_view.m11 = (1 / 1.15) ^ 5 ∧
    ¬ ∃ minScale maxScale : ℚ, 0 < minScale ∧ minScale ≤ maxScale ∧
      ∀ evs : List QWheelEvent, (∀ e ∈ evs, e.controlModifier = true) →
        minScale ≤ (evs.foldl MainWindow.wheelEvent (MainWindow.new none)).m_view.m11 ∧
        (evs.foldl MainWindow.wheelEvent (MainWindow.new none)).m_view.m11 ≤ maxScale := by
  have hup : ∀ n : ℕ, ((List.replicate n (⟨true, 120⟩ : QWheelEvent)).foldl MainWindow.wheelEvent
      (MainWindow.new none)).m_view.m11 = 1.15 ^ n := by
    intro n
    rw [(wheelEvents_scale _ _).1]
    simp [List.countP_replicate, MainWindow.new, QGraphicsView.new]
  have hdown : ∀ n : ℕ, ((List.replicate n (⟨true, -120⟩ : QWheelEvent)).foldl
      MainWindow.wheelEvent (MainWindow.new none)).m_view.m11 = (1 / 1.15) ^ n := by
    intro n
    rw [(wheelEvents_scale _ _).1]
    simp [List.countP_replicate, MainWindow.new, QGraphicsView.new]
  refine ⟨hup 5, hdown 5, ?_⟩
  rintro ⟨minScale, maxScale, _, _, hall⟩
  obtain ⟨n, hn⟩ := pow_unbounded_of_one_lt maxScale (by norm_num : (1 : ℚ) < 1.15)
  have hbound := (hall (List.replicate n ⟨true, 120⟩)
    (fun e he => by rw [List.eq_of_mem_replicate he])).2
  rw [hup n] at hbound
  exact absurd hbound (not_le.mpr hn)

theorem wheelEvent_scale_pos (w : MainWindow) (event : QWheelEvent)
    (hpos : 0 < w.m_view.m11 ∧ 0 < w.m_view.m22) :
    0 < (w.wheelEvent event).m_view.m11 ∧ 0 < (w.wheelEvent event).m_view.m22 := by
  obtain ⟨h1, h2⟩ := hpos
  unfold MainWindow.wheelEvent
  split
  · split
    · exact ⟨mul_pos h1 (by norm_num [MainWindow.scaleFactor]),
        mul_pos h2 (by norm_num [MainWindow.scaleFactor])⟩
    · exact ⟨mul_pos h1 (by norm_num [MainWindow.scaleFactor]),
        mul_pos h2 (by norm_num [MainWindow.scaleFactor])⟩
  · exact ⟨h1, h2⟩

theorem wheelEvents_scale_pos (evs : List QWheelEvent) :
    ∀ w : MainWindow, 0 < w.m_view.m11 ∧ 0 < w.m_view.m22 →
      0 < (evs.foldl MainWindow.wheelEvent w).m_view.m11 ∧
      0 < (evs.foldl MainWindow.wheelEvent w).m_view.m22 := by
  induction evs with
  | nil => intro w h; exact h
  | cons e rest ih =>
    intro w h
    exact ih (w.wheelEvent e) (wheelEvent_scale_pos w e h)

/-- C6, amended: the view scale is never clamped.  Read over the rationals, a
Ctrl+wheel event multiplies both scale factors of the view by 1.15 when its
vertical delta is positive and by 1/1.15 otherwise, whatever the current scale
is; and after any sequence of wheel events applied to a new window (scale 1)
the scale is positive. -/
theorem zoom_step_never_clamped (w : MainWindow) (event : QWheelEvent)
    (hctrl : event.controlModifier = true) (indeterminate : Option ℕ)
    (evs : List QWheelEvent) :
    (w.wheelEvent event).m_view.m11
      = w.m_view.m11 * (if 0 < event.angleDeltaY then 1.15 else 1 / 1.15) ∧
    (w.wheelEvent event).m_view.m22
      = w.m_view.m22 * (if 0 < event.angleDeltaY then 1.15 else 1 / 1.15) ∧
    (w.wheelEvent event).m_scene = w.m_scene ∧
    0 < (evs.foldl MainWindow.wheelEvent (MainWindow.new indeterminate)).m_view.m11 ∧
    0 < (evs.foldl MainWindow.wheelEvent (MainWindow.new indeterminate)).m_view.m22 := by
  have hpos := wheelEvents_scale_pos evs (MainWindow.new indeterminate)
    ⟨by norm_num [MainWindow.new, QGraphicsView.new],
     by norm_num [MainWindow.new, QGraphicsView.new]⟩
  refine ⟨?_, ?_, ?_, hpos.1, hpos.2⟩
  · by_cases hd : 0 < event.angleDeltaY
    · simp [MainWindow.wheelEvent, hctrl, hd, QGraphicsView.scale, MainWindow.scaleFactor]
    · simp only [MainWindow.wheelEvent, hctrl, hd, if_true, if_false, QGraphicsView.scale,
        MainWindow.scaleFactor, gt_iff_lt]
      norm_num
  · by_cases hd : 0 < event.angleDeltaY
    · simp [MainWindow.wheelEvent, hctrl, hd, QGraphicsView.scale, MainWindow.scaleFactor]
    · simp only [MainWindow.wheelEvent, hctrl, hd, if_true, if_false, QGraphicsView.scale,
        MainWindow.scaleFactor, gt_iff_lt]
      norm_num
  · by_cases hd : event.angleDeltaY > 0 <;> simp [MainWindow.wheelEvent, hctrl, hd]

/-- Witness for C6, amended: a Ctrl+wheel step up on a new window gives the
scale 1.15. -/
theorem zoom_step_never_clamped_witness :
    ((MainWindow.new none).wheelEvent ⟨true, 120⟩).m_view.m11
      = (MainWindow.new none).m_view.m11 * (if (0 : ℤ) < 120 then 1.15 else 1 / 1.15) :=
  (zoom_step_never_clamped (MainWindow.new none) ⟨true, 120⟩ rfl none []).1

/-! Handles stay fresh in every state the program reaches -/

theorem wellFormed_new (indeterminate : Option ℕ) :
    (AnnotationScene.new indeterminate).WellFormed := by
  intro e he
  simp [AnnotationScene.new] at he

theorem wellFormed_addItem (sc : AnnotationScene) (item : QGraphicsItem)
    (hwf : sc.WellFormed) : (sc.addItem item).1.WellFormed := by
  intro e he
  simp only [AnnotationScene.addItem, List.mem_append, List.mem_singleton] at he ⊢
  rcases he with he | rfl
  · exact Nat.lt_succ_of_lt (hwf e he)
  · exact Nat.lt_succ_self _

theorem wellFormed_mousePressEvent (sc : AnnotationScene) (event : QGraphicsSceneMouseEvent)
    (hwf : sc.WellFormed) : (sc.mousePressEvent event).WellFormed := by
  unfold AnnotationScene.mousePressEvent
  split
  · exact wellFormed_addItem sc _ hwf
  · exact hwf

theorem wellFormed_setPath (sc : AnnotationScene) (h : ℕ) (path : QPainterPath)
    (hwf : sc.WellFormed) : (sc.setPath h path).WellFormed := by
  intro e he
  simp only [AnnotationScene.setPath, List.mem_map] at he ⊢
  obtain ⟨e0, he0, rfl⟩ := he
  have hlt := hwf e0 he0
  split
  · split <;> exact hlt
  · exact hlt

theorem wellFormed_mouseMoveEvent (sc sc1 : AnnotationScene) (event : QGraphicsSceneMouseEvent)
    (hwf : sc.WellFormed) (hmove : sc.mouseMoveEvent event = some sc1) : sc1.WellFormed := by
  unfold AnnotationScene.mouseMoveEvent at hmove
  split at hmove
  · split at hmove
    · cases hmove; exact hwf
    · split at hmove
      · cases hmove
      · cases hmove; exact wellFormed_setPath sc _ _ hwf
  · cases hmove; exact hwf

theorem wellFormed_mouseReleaseEvent (sc : AnnotationScene) (event : QGraphicsSceneMouseEvent)
    (hwf : sc.WellFormed) : (sc.mouseReleaseEvent event).WellFormed := by
  unfold AnnotationScene.mouseReleaseEvent
  split
  · exact hwf
  · exact hwf

theorem wellFormed_act (w w1 : MainWindow) (a : Action) (hwf : w.m_scene.WellFormed)
    (hact : w.act a = some w1) : w1.m_scene.WellFormed := by
  cases a with
  | pointer ev =>
    cases ev with
    | press event =>
      simp only [MainWindow.act, AnnotationScene.handle, Option.map_some', Option.some.injEq]
        at hact
      subst hact
      exact wellFormed_mousePressEvent _ _ hwf
    | move event =>
      simp only [MainWindow.act, AnnotationScene.handle] at hact
      cases hm : w.m_scene.mouseMoveEvent event with
      | none => simp [hm] at hact
      | some sc1 =>
        simp only [hm, Option.map_some', Option.some.injEq] at hact
        subst hact
        exact wellFormed_mouseMoveEvent _ _ event hwf hm
    | release event =>
      simp only [MainWindow.act, AnnotationScene.handle, Option.map_some', Option.some.injEq]
        at hact
      subst hact
      exact wellFormed_mouseReleaseEvent _ _ hwf
  | wheel event =>
    simp only [MainWindow.act, Option.some.injEq] at hact
    subst hact
    unfold MainWindow.wheelEvent
    split
    · split <;> exact hwf
    · exact hwf
  | penColor color =>
    simp only [MainWindow.act, Option.some.injEq] at hact
    subst hact
    exact hwf
  | penWidth width =>
    simp only [MainWindow.act, Option.some.injEq] at hact
    subst hact
    exact hwf
  | open_ filePath loaded =>
    simp only [MainWindow.act] at hact
    exact (openPdf_frame w w1 filePath loaded hact).2.2 hwf

theorem wellFormed_actAll (actions : List Action) :
    ∀ w w1 : MainWindow, w.m_scene.WellFormed → w.actAll actions = some w1 →
      w1.m_scene.WellFormed := by
  induction actions with
  | nil =>
    intro w w1 hwf hall
    simp only [MainWindow.actAll, Option.some.injEq] at hall
    subst hall
    exact hwf
  | cons a rest ih =>
    intro w w1 hwf hall
    simp only [MainWindow.actAll] at hall
    cases ha : w.act a with
    | none => simp [ha] at hall
    | some w2 =>
      simp only [ha] at hall
      exact ih w2 w1 (wellFormed_act w w2 a hwf ha) hall

theorem wellFormed_reachable (indeterminate : Option ℕ) (actions : List Action) (w : MainWindow)
    (hrun : (MainWindow.new indeterminate).actAll actions = some w) : w.m_scene.WellFormed :=
  wellFormed_actAll actions _ w (wellFormed_new indeterminate) hrun

end QtPdfAnnotator
